import Mathlib

/-!
Shallow embedding of the figgis schema-driven normalization library
(src/figgis/__init__.py): field descriptors, type-coercion chains, nested
schema recursion, schema inheritance merging, and the orchestration that
walks a raw mapping against a schema to build a normalized record.

Python values are modelled by the inductive `Value` (floats are outside the
fragment exercised by the claims).  A Python object reference used as a
`parent` back-reference is modelled by the dotted path at which the record
was constructed; the top-level record under construction (`self` in
`Config.__init__`) is modelled by the marker `""`.  Exceptions are modelled
by `Except Err`, with `Err.typeError` standing for an uncaught Python
`TypeError`/`AttributeError` (a crash that is neither `ValidationError` nor
`PropertyError`).
-/

/-- Python values in the fragment the claims exercise: `None`, `bool`,
`int`, `float`, `str`, lists, plain dicts with string keys, and `Config`
records.  A finite float is a dyadic rational; it is modelled by its
numeric value `q : ℚ` (which is what Python `==` and `int()` consume)
together with its `str()` rendering carried as data (reproducing
CPython's shortest-round-trip float printing is out of scope, and no
claim depends on the rendering); the non-finite floats `inf`/`nan` are
outside the model (both fall under every failure clause exactly like any
other unlisted value, since they compare unequal to `0` and `1`).
A record carries the name of its schema class, its `_parent` reference
(modelled as the construction path of the parent, `none` for absent) and
its `_properties` bag. -/
inductive Value where
  | vnull : Value
  | vbool (b : Bool) : Value
  | vint (n : Int) : Value
  | vfloat (q : ℚ) (rendering : String) : Value
  | vstr (s : String) : Value
  | vlist (xs : List Value) : Value
  | vdict (entries : List (String × Value)) : Value
  | vrec (schemaName : String) (parent : Option String)
      (props : List (String × Value)) : Value

/-- Errors raised during schema definition or normalization.
`typeError` models an uncaught Python exception (`TypeError`,
`AttributeError`): a crash, not one of figgis's own error classes. -/
inductive Err where
  | propertyError (msg : String) : Err
  | validationError (msg : String) : Err
  | typeError (msg : String) : Err
  deriving DecidableEq, Repr

mutual

/-- Python `==` on the modelled value universe (used for set membership in
`choices` and in the `_TRUTHY`/`_FALSEY` frozensets).  Python compares
numbers across `bool`/`int`/`float` by numeric value (`True == 1`,
`1.0 == 1`); everything else is structural on the fragment the claims
exercise. -/
def Value.beq : Value → Value → Bool
  | .vnull, .vnull => true
  | .vbool a, .vbool b => a == b
  | .vint a, .vint b => a == b
  | .vbool a, .vint m => (if a then (1 : Int) else 0) == m
  | .vint n, .vbool b => n == (if b then (1 : Int) else 0)
  | .vbool a, .vfloat q _ => ((if a then (1 : Int) else 0 : Int) : ℚ) == q
  | .vfloat q _, .vbool b => q == ((if b then (1 : Int) else 0 : Int) : ℚ)
  | .vint n, .vfloat q _ => ((n : ℚ)) == q
  | .vfloat q _, .vint m => q == ((m : ℚ))
  | .vfloat q _, .vfloat r _ => q == r
  | .vstr a, .vstr b => a == b
  | .vlist xs, .vlist ys => Value.beqList xs ys
  | .vdict xs, .vdict ys => Value.beqEntries xs ys
  | .vrec n p ps, .vrec n' p' ps' => n == n' && p == p' && Value.beqEntries ps ps'
  | _, _ => false

def Value.beqList : List Value → List Value → Bool
  | [], [] => true
  | x :: xs, y :: ys => Value.beq x y && Value.beqList xs ys
  | _, _ => false

def Value.beqEntries : List (String × Value) → List (String × Value) → Bool
  | [], [] => true
  | (k, v) :: xs, (k', v') :: ys => k == k' && Value.beq v v' && Value.beqEntries xs ys
  | _, _ => false

end

/-- Membership of a value in a Python collection (list of the modelled
values), by Python `==`. -/
def valueMem (v : Value) : List Value → Bool
  | [] => false
  | c :: cs => Value.beq v c || valueMem v cs

/-- Decimal rendering of a natural number (Python's `str` on a
non-negative `int`). -/
def natStr (n : Nat) : String := toString n

mutual

/-- Python `str()` on the modelled value universe.  Renderings of
containers and records approximate CPython's `repr`-based forms; no claim
depends on them beyond `str` being the identity on strings.  Container
items render `repr`-style: strings quoted, the rest as `pyStr`. -/
def pyStr : Value → String
  | .vnull => "None"
  | .vbool true => "True"
  | .vbool false => "False"
  | .vint n => if n < 0 then "-" ++ natStr n.natAbs else natStr n.natAbs
  | .vfloat _ r => r
  | .vstr s => s
  | .vlist xs => "[" ++ pyStrList xs ++ "]"
  | .vdict es => "\x7b" ++ pyStrDict es ++ "\x7d"
  | .vrec n _ _ => "<" ++ n ++ " object>"

/-- Comma-joined item renderings of a list body. -/
def pyStrList : List Value → String
  | [] => ""
  | [.vstr s] => "'" ++ s ++ "'"
  | [x] => pyStr x
  | .vstr s :: y :: xs => "'" ++ s ++ "'" ++ ", " ++ pyStrList (y :: xs)
  | x :: y :: xs => pyStr x ++ ", " ++ pyStrList (y :: xs)

/-- Comma-joined `key: value` renderings of a dict body. -/
def pyStrDict : List (String × Value) → String
  | [] => ""
  | [(k, .vstr s)] => "'" ++ k ++ "': " ++ ("'" ++ s ++ "'")
  | [(k, v)] => "'" ++ k ++ "': " ++ pyStr v
  | (k, .vstr s) :: e :: es => "'" ++ k ++ "': " ++ ("'" ++ s ++ "'") ++ ", " ++ pyStrDict (e :: es)
  | (k, v) :: e :: es => "'" ++ k ++ "': " ++ pyStr v ++ ", " ++ pyStrDict (e :: es)

end

/-- Digits of a decimal literal body: accumulate a natural number, failing
on a non-digit character. -/
def decDigits : List Char → Nat → Option Nat
  | [], acc => some acc
  | c :: cs, acc =>
      if c.isDigit then decDigits cs (acc * 10 + (c.toNat - '0'.toNat))
      else none

/-- Characters stripped from a numeric literal by Python `int(str)`. -/
def stripSpaces (cs : List Char) : List Char :=
  ((cs.dropWhile Char.isWhitespace).reverse.dropWhile Char.isWhitespace).reverse

/-- Python `int(s)` on a string: optional surrounding whitespace, optional
sign, then decimal digits; anything else raises `ValueError` (`none`). -/
def pyParseInt (s : String) : Option Int :=
  match stripSpaces s.toList with
  | [] => none
  | '-' :: [] => none
  | '+' :: [] => none
  | '-' :: cs => (decDigits cs 0).map fun n => -(n : Int)
  | '+' :: cs => (decDigits cs 0).map fun n => (n : Int)
  | cs => (decDigits cs 0).map fun n => (n : Int)

mutual

/-- One step of a field's coercion chain (`Field._types` entries): a
primitive type, a nested `Config` subclass (`Schema`), or a user-supplied
one-argument function carrying its `__name__`. -/
inductive TypeStep where
  | tInt : TypeStep
  | tStr : TypeStep
  | tBool : TypeStep
  | tSchema (s : Schema) : TypeStep
  | tFunc (fname : String) (f : Value → Value) : TypeStep

/-- A `Field` (or `ListField`, when `isList` is true) after `Field.__init__`
has run: the coercion chain, `required`/`default`/`nullable` policy, the
`key` alias, the user validators (each returns a Bool or raises a
`ValidationError` whose message is the `String` error), and `choices`.
The `default` sentinel `NotSpecified` is `none`; an explicit `None` default
is `some .vnull`. -/
inductive FieldS where
  | mk (types : List TypeStep) (required : Bool) (default : Option Value)
      (nullable : Bool) (key : Option String)
      (validators : List (Value → Except String Bool))
      (choices : Option (List Value)) (isList : Bool) : FieldS

/-- A schema class as built by `ConfigMeta.__new__`: its name, its merged
`_fields` table (insertion-ordered, unique keys in Python), and the
`__allow_extra__` policy (already defaulted to `True` by `normalizer`). -/
inductive Schema where
  | mk (name : String) (fields : List (String × FieldS)) (allowExtra : Bool) : Schema

end

def FieldS.types : FieldS → List TypeStep
  | .mk ts _ _ _ _ _ _ _ => ts

def FieldS.required : FieldS → Bool
  | .mk _ r _ _ _ _ _ _ => r

def FieldS.default : FieldS → Option Value
  | .mk _ _ d _ _ _ _ _ => d

def FieldS.nullable : FieldS → Bool
  | .mk _ _ _ nb _ _ _ _ => nb

def FieldS.key : FieldS → Option String
  | .mk _ _ _ _ k _ _ _ => k

def FieldS.validators : FieldS → List (Value → Except String Bool)
  | .mk _ _ _ _ _ vs _ _ => vs

def FieldS.choices : FieldS → Option (List Value)
  | .mk _ _ _ _ _ _ cs _ => cs

def FieldS.isList : FieldS → Bool
  | .mk _ _ _ _ _ _ _ il => il

def Schema.name : Schema → String
  | .mk n _ _ => n

def Schema.fields : Schema → List (String × FieldS)
  | .mk _ fs _ => fs

def Schema.allowExtra : Schema → Bool
  | .mk _ _ ae => ae

/-- Python dict lookup on an insertion-ordered association list (first
binding wins, as Python keys are unique). -/
def lookupV (k : String) : List (String × Value) → Option Value
  | [] => none
  | (k', v) :: rest => if k' == k then some v else lookupV k rest

/-- Lookup in a `_fields` table. -/
def lookupF (k : String) : List (String × FieldS) → Option FieldS
  | [] => none
  | (k', f) :: rest => if k' == k then some f else lookupF k rest

/-- The name `type_.__name__` used in `ValidationError` messages. -/
def TypeStep.tname : TypeStep → String
  | .tInt => "int"
  | .tStr => "str"
  | .tBool => "bool"
  | .tSchema s => s.name
  | .tFunc n _ => n

/-- Python `isinstance(value, type_)` for the types a step can carry.
`isinstance(True, int)` holds in Python (`bool` subclasses `int`); a
record is an instance of a `Config` subclass exactly when it was built by
that schema (figgis inheritance is not class inheritance). A function is
not a class, so nothing is an instance of a `tFunc` step. -/
def isInstanceOf (v : Value) : TypeStep → Bool
  | .tInt => match v with
    | .vint _ => true
    | .vbool _ => true
    | _ => false
  | .tStr => match v with
    | .vstr _ => true
    | _ => false
  | .tBool => match v with
    | .vbool _ => true
    | _ => false
  | .tSchema s => match v with
    | .vrec n _ _ => n == s.name
    | _ => false
  | .tFunc _ _ => false

/-- Whether `isclass(type_) or isinstance(type_, type)` holds for a step:
true for the primitive types and `Config` subclasses, false for plain
functions. -/
def TypeStep.isClassStep : TypeStep → Bool
  | .tFunc _ _ => false
  | _ => true

/-- The `_TRUTHY` frozenset literal (`long(1), 1, 'true', 'True', 'yes',
'1', True`; `long` is `int` on Python 3). -/
def truthyVals : List Value :=
  [.vint 1, .vstr "true", .vstr "True", .vstr "yes", .vstr "1", .vbool true]

/-- The `_FALSEY` frozenset literal. -/
def falseyVals : List Value :=
  [.vint 0, .vstr "false", .vstr "False", .vstr "no", .vstr "0", .vbool false]

/-- `Field.coerce_bool`: membership in `_TRUTHY`/`_FALSEY` by Python `==`,
else `ValueError`.  An unhashable value (list/dict) raises `TypeError`;
both are modelled as `.error ()` since `invalid_type` catches
`(TypeError, ValueError)` alike. -/
def coerceBool (v : Value) : Except Unit Value :=
  if valueMem v truthyVals then .ok (.vbool true)
  else if valueMem v falseyVals then .ok (.vbool false)
  else .error ()

/-- The non-`Config`, non-parent part of `Field.coerce`: return the value
unchanged when it is already an instance of the step's type, use
`coerce_bool` for `bool`, apply the constructor/function otherwise.
`int(...)` fails (`TypeError`/`ValueError`) on anything but numbers and
numeric strings (a float is truncated toward zero); `str(...)` always
succeeds; a user function is applied as-is ("trust the function"). -/
def coerceValue (t : TypeStep) (v : Value) : Except Unit Value :=
  if t.isClassStep && isInstanceOf v t then .ok v
  else match t with
    | .tBool => coerceBool v
    | .tFunc _ f => .ok (f v)
    | .tInt => match v with
      | .vstr s => match pyParseInt s with
        | some n => .ok (.vint n)
        | none => .error ()
      | .vfloat q _ => .ok (.vint (Int.tdiv q.num (q.den : ℤ)))
      | _ => .error ()
    | .tStr => .ok (.vstr (pyStr v))
    | .tSchema _ => .error ()

/-- `Field.invalid_type`: `None` is invalid iff the field is not nullable;
for a `Config` step the value must be an instance of that schema's record
type or a `dict`; data parsed by custom functions is assumed valid; for
primitive types, attempt the coercion and report invalid when it raises. -/
def invalidType (f : FieldS) (t : TypeStep) (v : Value) : Bool :=
  match v with
  | .vnull => !f.nullable
  | _ => match t with
    | .tSchema s => !(isInstanceOf v (.tSchema s) || (match v with | .vdict _ => true | _ => false))
    | .tFunc _ _ => false
    | _ => match coerceValue t v with
      | .ok _ => false
      | .error _ => true

/-- `ListField.is_list`: a `None` raw value counts as a list exactly when
the field is neither required nor defaulted; otherwise the value must be a
`list`. -/
def isListValue (f : FieldS) (v : Value) : Bool :=
  match v with
  | .vnull => !f.required && f.default.isNone
  | .vlist _ => true
  | _ => false

/-- The `choice_validator` installed by `Field.base_validators` when
`choices` is set: raise `ValidationError` when the value is not in the
choice set, else return `True`. -/
def choiceValidatorF (cs : List Value) (v : Value) : Except String Bool :=
  if !(valueMem v cs) then .error ("Value '" ++ pyStr v ++ "' is not a valid choice")
  else .ok true

/-- `ListField.choice_validator`: check each element of the normalized
list against the choice set, erring at the first element outside it. -/
def listChoiceCheck (cs : List Value) : List Value → Except String Bool
  | [] => .ok true
  | x :: xs =>
      if !(valueMem x cs) then .error ("Value '" ++ pyStr x ++ "' is not a valid choice")
      else listChoiceCheck cs xs

/-- The `ListField` override of `choice_validator`.  List normalization
always produces a list, so the non-list branch is unreachable there. -/
def listChoiceValidatorF (cs : List Value) (v : Value) : Except String Bool :=
  match v with
  | .vlist xs => listChoiceCheck cs xs
  | _ => .ok true

/-- `self._validators` as assembled at the end of `Field.__init__`: the
user validators followed by `base_validators()` (the choice validator when
`choices` is set, dispatched by class). -/
def fieldValidators (f : FieldS) : List (Value → Except String Bool) :=
  f.validators ++
    match f.choices with
    | some cs => [if f.isList then listChoiceValidatorF cs else choiceValidatorF cs]
    | none => []

/-- The loop body of `Field.validate`: a validator returning `False`
raises `ValidationError("Field '{p}' is invalid")` inside the `try`, so
its own `except ValidationError` clause re-wraps it once more; a validator
raising `ValidationError(m)` is re-wrapped to
`"Field '{p}' is invalid: {m}"`.  The first failure aborts. -/
def runValidators (vs : List (Value → Except String Bool)) (normalized : Value)
    (prefixed : String) : Except Err Unit :=
  match vs with
  | [] => .ok ()
  | g :: rest =>
    match g normalized with
    | .error m =>
        .error (.validationError ("Field '" ++ prefixed ++ "' is invalid: " ++ m))
    | .ok false =>
        .error (.validationError ("Field '" ++ prefixed ++ "' is invalid: " ++
          ("Field '" ++ prefixed ++ "' is invalid")))
    | .ok true => runValidators rest normalized prefixed

/-- `Field.validate`: a no-op unless the field exists and there are
validators to run. -/
def fieldValidate (f : FieldS) (normalized : Value) (prefixed : String)
    (exists_ : Bool) : Except Err Unit :=
  if !(exists_ && !(fieldValidators f).isEmpty) then .ok ()
  else runValidators (fieldValidators f) normalized prefixed

/-- The dotted path of a field under an optional prefix. -/
def dottedName (pre : Option String) (name : String) : String :=
  match pre with
  | none => name
  | some p => p ++ "." ++ name

/-- The extra keys `frozenset(config) - frozenset(cls._fields)` of the
`normalize` classmethod: raw-mapping keys that are not field NAMES (no
alias resolution happens in the source).  Only emptiness and one member
are consumed; the set's iteration order is abstracted as insertion
order. -/
def extraKeysOf (entries : List (String × Value)) (fieldNames : List String) : List String :=
  (entries.map Prod.fst).filter (fun k => !(fieldNames.contains k))

/-- The `enumerate` loop of `ListField.normalize_field`: normalize each
element through the base (non-list) `normalize_field` logic `g`, with the
element index appended to the path. -/
def listElems (g : Value → String → Except Err Value) :
    List Value → Nat → String → Except Err (List Value)
  | [], _, _ => .ok []
  | x :: rest, i, prefixed => do
      let w ← g x (prefixed ++ "." ++ natStr i)
      let ws ← listElems g rest (i + 1) prefixed
      .ok (w :: ws)

/-- `ListField.normalize_field`: require a list (`is_list`), treat an
absent value as the empty list, and run the element loop through the base
(non-list) logic `g` of the current step. -/
def normalizeListField (f : FieldS) (g : Value → String → Except Err Value)
    (v : Value) (prefixed : String) : Except Err Value :=
  if !(isListValue f v) then
    .error (.validationError ("Field " ++ prefixed ++ " is not a list"))
  else
    match v with
    | .vlist xs => do
        let ws ← listElems g xs 0 prefixed
        .ok (.vlist ws)
    | _ => do
        let ws ← listElems g [] 0 prefixed
        .ok (.vlist ws)

mutual

/-- The classmethod installed by `normalizer` (`cls._normalize`): enforce
the extra-key policy, then normalize every declared field.  Its `config`
argument is a mapping in the intended flow; iterating anything else (a
record, say) raises an uncaught `TypeError` in Python, modelled by
`Err.typeError`. -/
def normalizeSchemaV (s : Schema) (cfg : Value) (pre : Option String)
    (par : Option String) : Except Err (List (String × Value)) :=
  match s with
  | .mk _ sfields allowExtra =>
    match cfg with
    | .vdict entries =>
      match extraKeysOf entries (sfields.map Prod.fst) with
      | k :: _ =>
        if !allowExtra then
          .error (.propertyError ("Encountered unexpected key: " ++
            (match pre with | some p => p ++ "." | none => "") ++ k))
        else normalizeFieldsList sfields entries pre par
      | [] => normalizeFieldsList sfields entries pre par
    | _ => .error (.typeError "object is not iterable")

/-- The generator `field.normalize(config, name, ...) for name, field in
cls._fields.items()` feeding the `NormalizedDict`, in field table order. -/
def normalizeFieldsList (fs : List (String × FieldS)) (entries : List (String × Value))
    (pre : Option String) (par : Option String) : Except Err (List (String × Value)) :=
  match fs with
  | [] => .ok []
  | (n, f) :: rest => do
      let p ← fieldNormalize f entries n pre par
      let ps ← normalizeFieldsList rest entries pre par
      .ok (p :: ps)

/-- `Field.normalize`: resolve the lookup key (`self._key or name`),
handle absence via `required`/`default`, run the coercion chain, then
`validate` with the `exists` flag (true when the key was present or a
non-sentinel default was used). -/
def fieldNormalize (f : FieldS) (entries : List (String × Value)) (name : String)
    (pre : Option String) (par : Option String) : Except Err (String × Value) :=
  match f with
  | .mk ts req dflt _ key _ _ _ =>
    let configKey := match key with
      | some k => if k.isEmpty then name else k
      | none => name
    let prefixed := dottedName pre name
    match lookupV configKey entries with
    | none =>
      if req then .error (.propertyError ("Missing property: " ++ prefixed))
      else do
        let normalized ← chainSteps f ts (dflt.getD .vnull) prefixed par
        match fieldValidate f normalized prefixed dflt.isSome with
        | .error e => .error e
        | .ok _ => .ok (name, normalized)
    | some v => do
        let normalized ← chainSteps f ts v prefixed par
        match fieldValidate f normalized prefixed true with
        | .error e => .error e
        | .ok _ => .ok (name, normalized)

/-- The loop `for type_ in self.types: normalized = self.normalize_field(...)`
threading the value through the coercion chain.  `normalize_field` is
dispatched virtually: for a `ListField` the override wraps the base logic
of the same step over each element. -/
def chainSteps (f : FieldS) (ts : List TypeStep) (v : Value) (prefixed : String)
    (par : Option String) : Except Err Value :=
  match ts with
  | [] => .ok v
  | t :: rest => do
      let w ←
        if f.isList then
          normalizeListField f (fun x pfx => normalizeFieldBase f t x pfx par) v prefixed
        else normalizeFieldBase f t v prefixed par
      chainSteps f rest w prefixed par

/-- `Field.normalize_field`: reject invalid types, short-circuit `None`,
recurse into nested schemas (constructing the nested record through
`Field.coerce` with `__parent=parent`; note the recursive `_normalize`
call passes no parent of its own), and otherwise coerce.  The second
`coerce` call in the source can only raise for inputs `invalid_type`
already rejected, so its error branch is an uncaught-exception model. -/
def normalizeFieldBase (f : FieldS) (t : TypeStep) (v : Value) (prefixed : String)
    (par : Option String) : Except Err Value :=
  if invalidType f t v then
    .error (.validationError ("Property " ++ prefixed ++ " is not of type " ++ t.tname))
  else
    match v with
    | .vnull => .ok .vnull
    | _ =>
      match t with
      | .tSchema s => do
          let props ← normalizeSchemaV s v prefixed none
          .ok (.vrec s.name par props)
      | _ =>
        match coerceValue t v with
        | .ok w => .ok w
        | .error _ => .error (.typeError "uncaught coercion error")

end

/-- The positional argument of `Config.__init__` (merged with kwargs): a
plain mapping, or a `NormalizedDict` (a mapping tagged as already
normalized). -/
inductive InitArg where
  | raw (entries : List (String × Value)) : InitArg
  | normalized (entries : List (String × Value)) : InitArg

/-- `Config.__init__`: a `NormalizedDict` argument is used as the property
bag without any normalization or validation; any other mapping is
normalized by `cls._normalize(combined, parent=self)`.  The `self` passed
as parent is the record under construction, modelled by the marker `""`;
`parentKw` is the `__parent` keyword (absent for user calls). -/
def configInit (s : Schema) (arg : InitArg) (parentKw : Option String) : Except Err Value :=
  match arg with
  | .normalized props => .ok (.vrec s.name parentKw props)
  | .raw entries => do
      let props ← normalizeSchemaV s (.vdict entries) none (some "")
      .ok (.vrec s.name parentKw props)

mutual

/-- The loop body of `Config.to_dict` over `self._properties`. -/
def recToDict (props : List (String × Value)) : Except Err (List (String × Value)) :=
  match props with
  | [] => .ok []
  | (k, v) :: rest => do
      let w ← propToDict v
      let ws ← recToDict rest
      .ok ((k, w) :: ws)

/-- One property value in `Config.to_dict`: nested records become plain
dicts, a list containing any record maps `item.to_dict()` over ALL its
items (a non-record item then raises `AttributeError`, modelled by
`Err.typeError`), anything else is left untouched. -/
def propToDict (v : Value) : Except Err Value :=
  match v with
  | .vrec _ _ ps => do
      let d ← recToDict ps
      .ok (.vdict d)
  | .vlist xs =>
      if xs.any (fun x => match x with | .vrec _ _ _ => true | _ => false) then do
        let ds ← listToDict xs
        .ok (.vlist ds)
      else .ok (.vlist xs)
  | other => .ok other

/-- The `[item.to_dict() for item in value]` comprehension. -/
def listToDict (xs : List Value) : Except Err (List Value) :=
  match xs with
  | [] => .ok []
  | .vrec _ _ ps :: rest => do
      let d ← recToDict ps
      let ds ← listToDict rest
      .ok (.vdict d :: ds)
  | _ :: _ => .error (.typeError "object has no attribute to_dict")

end

/-- `Config.copy`: `self.__class__(self._properties.copy())`.  On a
`NormalizedDict`, `dict.copy()` returns a PLAIN `dict` (the subclass tag
is lost), so the constructor receives an untagged mapping and normalizes
it again. -/
def copyRecord (s : Schema) (props : List (String × Value)) : Except Err Value :=
  configInit s (.raw props) none

/-- Python `dict.update` on insertion-ordered association lists with
unique keys: existing keys are overwritten in place, new keys are
appended in their order. -/
def dictUpdate (d u : List (String × FieldS)) : List (String × FieldS) :=
  d.map (fun kv => match lookupF kv.1 u with
    | some f => (kv.1, f)
    | none => kv)
  ++ u.filter (fun kv => (lookupF kv.1 d).isNone)

/-- The field-table construction of `ConfigMeta.__new__`: start empty,
walk `__inherits__` in REVERSE declared order updating with each parent's
already-merged `_fields`, then update with the class's own declared
fields. -/
def buildFields (inherits : List (List (String × FieldS)))
    (own : List (String × FieldS)) : List (String × FieldS) :=
  dictUpdate (inherits.reverse.foldl dictUpdate []) own

/-- Whether a list of strings has pairwise distinct members (Python dict
keys are unique). -/
def keysDistinct : List String → Bool
  | [] => true
  | k :: ks => !(ks.contains k) && keysDistinct ks

mutual

/-- Steps for which the `to_dict`-then-renormalize round trip is proved:
a primitive type or a (recursively plain) nested schema; user functions
are excluded (applying one twice need not be idempotent). -/
def plainStep : TypeStep → Bool
  | .tInt => true
  | .tStr => true
  | .tBool => true
  | .tSchema s => plainSchema s
  | .tFunc _ _ => false

/-- Fields for which the round trip is proved: a single plain coercion
step, no key alias (the `to_dict` output is keyed by field names, so an
aliased field cannot find its value again), and no validators or choices
(re-normalization flips the `exists` flag for a field that was absent and
defaulted, so validators that were skipped the first time run the second
time). -/
def plainField : FieldS → Bool
  | .mk ts _ _ _ key vals chs _ =>
    (match ts with
     | [t] => plainStep t
     | _ => false)
    && key.isNone && vals.isEmpty && chs.isNone

/-- Schemas all of whose fields are plain, with distinct field names. -/
def plainSchema : Schema → Bool
  | .mk _ fs _ => keysDistinct (fs.map Prod.fst) && fieldsPlain fs

def fieldsPlain : List (String × FieldS) → Bool
  | [] => true
  | (_, f) :: rest => plainField f && fieldsPlain rest

end

mutual

/-- Steps containing no user function anywhere (a user function can
fabricate records with arbitrary parents). -/
def noFuncStep : TypeStep → Bool
  | .tInt => true
  | .tStr => true
  | .tBool => true
  | .tSchema s => noFuncSchema s
  | .tFunc _ _ => false

def noFuncSteps : List TypeStep → Bool
  | [] => true
  | t :: ts => noFuncStep t && noFuncSteps ts

/-- Fields with a non-empty, function-free coercion chain.  (In Python the
chain is never empty: `Field.__init__` defaults it to `(six.text_type,)`.) -/
def noFuncField : FieldS → Bool
  | .mk ts _ _ _ _ _ _ _ => !ts.isEmpty && noFuncSteps ts

def noFuncSchema : Schema → Bool
  | .mk _ fs _ => noFuncFields fs

def noFuncFields : List (String × FieldS) → Bool
  | [] => true
  | (_, f) :: rest => noFuncField f && noFuncFields rest

end

mutual

/-- Every record occurring anywhere inside the value has an absent
parent reference. -/
def recsNoParentV : Value → Bool
  | .vrec _ p ps => p.isNone && entriesNoParent ps
  | .vlist xs => listNoParent xs
  | .vdict es => entriesNoParent es
  | _ => true

def listNoParent : List Value → Bool
  | [] => true
  | x :: xs => recsNoParentV x && listNoParent xs

def entriesNoParent : List (String × Value) → Bool
  | [] => true
  | (_, v) :: es => recsNoParentV v && entriesNoParent es

end

/-- A top-level property value as the source produces it: a record stored
directly as a field value (or as a list element) carries `parent = a`
(the enclosing record), while every record nested any deeper carries no
parent at all. -/
def depth1Par (a : String) (v : Value) : Bool :=
  match v with
  | .vrec _ p ps => p == some a && entriesNoParent ps
  | .vlist xs => xs.all fun x =>
      match x with
      | .vrec _ p ps => p == some a && entriesNoParent ps
      | x => recsNoParentV x
  | v => recsNoParentV v

/-- Modelled from the spec for comparison with the source: the claim's
`extraKeys` with the field keys "computed after alias resolution", i.e.
each field contributes its declared `key` alias (its name when no alias
is declared). -/
def extraKeysAliasResolved (entries : List (String × Value))
    (fs : List (String × FieldS)) : List String :=
  let resolved := fs.map fun nf =>
    match nf.2.key with
    | some a => if a.isEmpty then nf.1 else a
    | none => nf.1
  (entries.map Prod.fst).filter (fun k => !(resolved.contains k))

/-- A plain optional int field (used by several concrete examples). -/
def intFieldP : FieldS := .mk [.tInt] false none true none [] none false

/-- The `int(value) + 1` user function of the repository's
`test_function`, on the int fragment. -/
def incFn : Value → Value
  | .vint n => .vint (n + 1)
  | v => v

/-- A schema with a single function-typed field, as in `test_function`. -/
def funcSchema : Schema :=
  .mk "FuncConfig" [("value", .mk [.tFunc "<lambda>" incFn] false none true none [] none false)] true

/-- An inner schema with one optional int field. -/
def innerSchema : Schema := .mk "Inner" [("value", intFieldP)] true

/-- An outer schema nesting `innerSchema`. -/
def outerSchema : Schema :=
  .mk "Outer" [("child", .mk [.tSchema innerSchema] false none true none [] none false)] true

/-- Three-level nesting for the parent back-reference claims. -/
def inner2Schema : Schema := .mk "Inner2" [("v", intFieldP)] true

def midSchema : Schema :=
  .mk "Mid" [("gc", .mk [.tSchema inner2Schema] false none true none [] none false)] true

def deepSchema : Schema :=
  .mk "Deep" [("child", .mk [.tSchema midSchema] false none true none [] none false)] true

/-- A schema with one aliased required int field and `__allow_extra__ =
False`, as in `test_translation` plus the extra-key policy. -/
def aliasSchema : Schema :=
  .mk "Conf" [("foo", .mk [.tInt] true none true (some "@foo") [] none false)] false

/-- A non-required str field constrained by `choices=['a']` and no
default: normalizing `{}` stores `None` without running validators. -/
def choiceStrField : FieldS :=
  .mk [.tStr] false none true none [] (some [.vstr "a"]) false

def choiceSchema : Schema := .mk "ChoiceConf" [("x", choiceStrField)] true

/-- The list-of-int field of the claim on list normalization:
`ListField(int, default=[1, 2, 3])` declared under the name `values`. -/
def listIntField : FieldS :=
  .mk [.tInt] false (some (.vlist [.vint 1, .vint 2, .vint 3])) true none [] none true

/-- What the source guarantees for a property value produced under a
given `parent` argument: with `parent` absent every record anywhere
inside carries no parent; with `parent = a` the records stored directly
(or as list elements) carry `parent = a` and everything deeper carries
none. -/
def valueParOK (par : Option String) (v : Value) : Bool :=
  match par with
  | none => recsNoParentV v
  | some a => depth1Par a v

/-- The per-element form of `valueParOK` for list-field elements (an
element produced by the base logic is never itself a list). -/
def elemParOK (par : Option String) (w : Value) : Bool :=
  match par with
  | none => recsNoParentV w
  | some a =>
    match w with
    | .vrec _ p ps => p == some a && entriesNoParent ps
    | _ => recsNoParentV w

/-- Distinct parent fields for the inheritance-precedence claim. -/
def fParentA : FieldS := .mk [.tStr] false (some (.vstr "parent1")) true none [] none false

def fParentB : FieldS := .mk [.tStr] false (some (.vstr "parent2")) true none [] none false

def fOwn : FieldS := .mk [.tStr] false (some (.vstr "testconfig")) true none [] none false

/-- A validator that accepts everything. -/
def vAlwaysTrue : Value → Except String Bool := fun _ => .ok true

/-- A validator that raises `ValidationError('Wrong')`, as in
`test_validate`. -/
def vRaisesWrong : Value → Except String Bool := fun _ => .error "Wrong"

/-- A field carrying both validators above, with no choices. -/
def twoValidatorField : FieldS :=
  .mk [.tStr] false none true none [vAlwaysTrue, vRaisesWrong] none false

/-- Helper: `Field.validate` is a no-op when the field has no validators
and no choices. -/
theorem fieldValidate_no_validators (f : FieldS) (v : Value) (p : String) (ex : Bool)
    (h1 : f.validators = []) (h2 : f.choices = none) :
    fieldValidate f v p ex = .ok () := by
  simp [fieldValidate, fieldValidators, h1, h2]

/-- C9: a `ListField(int, default=[1,2,3])` named `values`: an absent key
normalizes to the default `[1,2,3]`; the value `[1,"a"]` fails with a
`ValidationError` whose path names element index 1 (`values.1`); a
non-list scalar fails with a `ValidationError`. -/
theorem c9_list_int_field :
    fieldNormalize listIntField [] "values" none (some "") =
      .ok ("values", .vlist [.vint 1, .vint 2, .vint 3])
    ∧ fieldNormalize listIntField [("values", .vlist [.vint 1, .vstr "a"])] "values" none (some "") =
      .error (.validationError "Property values.1 is not of type int")
    ∧ fieldNormalize listIntField [("values", .vint 5)] "values" none (some "") =
      .error (.validationError "Field values is not a list") :=
  ⟨rfl, rfl, rfl⟩

/-- C3 (code bug): a nested-schema field accepts a plain mapping and
recursively normalizes it, and rejects a scalar with a `ValidationError`;
but a value that is the nested schema's own record type — which
`Field.invalid_type` explicitly admits — crashes `normalize` with an
uncaught `TypeError` (`frozenset(config)` iterates a non-iterable
`Config`), not a `ValidationError`. -/
theorem c3_record_value_crashes :
    configInit innerSchema (.raw [("value", .vint 1)]) none =
      .ok (.vrec "Inner" none [("value", .vint 1)])
    ∧ configInit outerSchema
        (.raw [("child", .vrec "Inner" none [("value", .vint 1)])]) none =
      .error (.typeError "object is not iterable")
    ∧ configInit outerSchema (.raw [("child", .vdict [("value", .vint 1)])]) none =
      .ok (.vrec "Outer" none [("child", .vrec "Inner" (some "") [("value", .vint 1)])])
    ∧ configInit outerSchema (.raw [("child", .vint 3)]) none =
      .error (.validationError "Property child is not of type Inner") :=
  ⟨rfl, rfl, rfl, rfl⟩

/-- C1 counterexample: for the function-typed field of `test_function`
(`lambda value: int(value) + 1`), normalizing `{value: 1}` yields
`value = 2`; `to_dict()` returns `{value: 2}`; normalizing that mapping
again yields `value = 3`, which differs from the first record's field
value — the round trip is not field-for-field equal. -/
theorem c1_function_step_counterexample :
    configInit funcSchema (.raw [("value", .vint 1)]) none =
      .ok (.vrec "FuncConfig" none [("value", .vint 2)])
    ∧ recToDict [("value", .vint 2)] = .ok [("value", .vint 2)]
    ∧ configInit funcSchema (.raw [("value", .vint 2)]) none =
      .ok (.vrec "FuncConfig" none [("value", .vint 3)])
    ∧ ¬(Value.vint 3 = Value.vint 2) :=
  ⟨rfl, rfl, rfl, by simp⟩

/-- C2 counterexample: `copy()` does NOT reuse the tagged property bag:
`dict.copy()` on the `NormalizedDict` returns a plain dict, so the
constructor re-normalizes.  For the function-typed field this is
observable: the copy's field value is `3`, not the original `2`. -/
theorem c2_copy_counterexample :
    configInit funcSchema (.raw [("value", .vint 1)]) none =
      .ok (.vrec "FuncConfig" none [("value", .vint 2)])
    ∧ copyRecord funcSchema [("value", .vint 2)] =
      .ok (.vrec "FuncConfig" none [("value", .vint 3)])
    ∧ ¬([("value", Value.vint 3)] = [("value", Value.vint 2)]) :=
  ⟨rfl, rfl, by simp⟩

/-- C2 as amended: a property bag still tagged `NormalizedDict` (as passed
internally while normalizing nested fields) is used as-is with no
re-validation; but `copy()` hands the constructor an UNTAGGED copy
(`dict.copy()` loses the subclass), so copying re-runs normalization and
validation — including propagating any error the re-validation raises. -/
theorem c2_copy_renormalizes :
    (∀ (s : Schema) (props : List (String × Value)) (par : Option String),
      configInit s (.normalized props) par = .ok (.vrec s.name par props))
    ∧ (∀ (s : Schema) (ps : List (String × Value)),
      copyRecord s ps = configInit s (.raw ps) none)
    ∧ (∀ (s : Schema) (ps : List (String × Value)) (e : Err),
      normalizeSchemaV s (.vdict ps) none (some "") = .error e →
        copyRecord s ps = .error e) := by
  refine ⟨fun s props par => rfl, fun s ps => rfl, fun s ps e h => ?_⟩
  simp [copyRecord, configInit, h, Bind.bind, Except.bind]

/-- Witness for the amended C2: a record of `choiceSchema` is legally
built from `{}` (its absent optional field stores `None` with validators
skipped), yet `copy()` raises a `ValidationError`, because re-normalizing
`{x: None}` re-runs the choice validator on `None`. -/
theorem c2_copy_renormalizes_witness :
    configInit choiceSchema (.raw []) none = .ok (.vrec "ChoiceConf" none [("x", .vnull)])
    ∧ copyRecord choiceSchema [("x", .vnull)] =
      .error (.validationError "Field 'x' is invalid: Value 'None' is not a valid choice") :=
  ⟨rfl, c2_copy_renormalizes.2.2 choiceSchema [("x", .vnull)] _ (by rfl)⟩

/-- C4 counterexample: in a three-level nesting the depth-1 record gets
`parent` = the top-level record, but the depth-2 record's parent is
ABSENT (the recursive `_normalize` call passes no parent), not the record
that directly contains it. -/
theorem c4_grandparent_counterexample :
    configInit deepSchema (.raw [("child", .vdict [("gc", .vdict [("v", .vint 1)])])]) none =
      .ok (.vrec "Deep" none
        [("child", .vrec "Mid" (some "")
          [("gc", .vrec "Inner2" none [("v", .vint 1)])])])
    ∧ ¬(Value.vrec "Inner2" none [("v", .vint 1)] =
        Value.vrec "Inner2" (some "child") [("v", .vint 1)]) :=
  ⟨rfl, by simp⟩

/-- C5 counterexample: with `__allow_extra__ = False` and a field declared
under alias `@foo`, supplying the data under that very alias raises
`PropertyError` — the source computes extra keys against field NAMES, so
the alias-resolved extra-key set of the claim (which is empty here) does
not describe the code. -/
theorem c5_alias_counterexample :
    normalizeSchemaV aliasSchema (.vdict [("@foo", .vint 1)]) none (some "") =
      .error (.propertyError "Encountered unexpected key: @foo")
    ∧ extraKeysAliasResolved [("@foo", .vint 1)] aliasSchema.fields = [] :=
  ⟨rfl, rfl⟩

/-- Helper: a successful `Field.normalize` returns a pair keyed by the
field's declared name. -/
theorem fieldNormalize_name (f : FieldS) (entries : List (String × Value)) (name : String)
    (pre par : Option String) (p : String × Value)
    (h : fieldNormalize f entries name pre par = .ok p) : p.1 = name := by
  cases f with
  | mk ts req dflt nb key vals chs il =>
    simp only [fieldNormalize, Bind.bind, Except.bind] at h
    repeat split at h
    all_goals rw [eq_comm] at h
    all_goals repeat split at h
    all_goals rw [eq_comm] at h
    all_goals repeat split at h
    all_goals cases h
    all_goals rfl

/-- Helper: the property bag produced by the per-field loop is keyed
exactly by the field table's names, in order. -/
theorem normalizeFieldsList_keys (fs : List (String × FieldS)) (entries : List (String × Value))
    (pre par : Option String) (props : List (String × Value))
    (h : normalizeFieldsList fs entries pre par = .ok props) :
    props.map Prod.fst = fs.map Prod.fst := by
  induction fs generalizing props with
  | nil =>
    simp only [normalizeFieldsList] at h
    cases h
    rfl
  | cons nf rest ih =>
    obtain ⟨n, f⟩ := nf
    simp only [normalizeFieldsList, Bind.bind, Except.bind] at h
    rcases hp : fieldNormalize f entries n pre par with e | p <;> rw [hp] at h
    · cases h
    · rcases hr : normalizeFieldsList rest entries pre par with e | ps <;> rw [hr] at h
      · cases h
      · cases h
        simp [ih ps hr, fieldNormalize_name f entries n pre par p hp]

/-- C5 as amended: the extra-key set is computed from the raw mapping's
keys minus the field NAMES — no alias resolution — so a key supplied
under a declared `key` alias counts as extra.  With `allowExtra` false
and a non-empty extra set, normalization fails with a `PropertyError`
naming the first extra key together with the path prefix; with
`allowExtra` true the extra check is skipped entirely, and any successful
result is keyed exactly by the schema's field names, so the extra key is
absent from the record. -/
theorem c5_extra_keys_by_name (s : Schema) (entries : List (String × Value))
    (pre par : Option String) :
    (∀ k ks, extraKeysOf entries (s.fields.map Prod.fst) = k :: ks →
      s.allowExtra = false →
      normalizeSchemaV s (.vdict entries) pre par =
        .error (.propertyError ("Encountered unexpected key: " ++
          (match pre with | some p => p ++ "." | none => "") ++ k)))
    ∧ (s.allowExtra = true →
      normalizeSchemaV s (.vdict entries) pre par =
        normalizeFieldsList s.fields entries pre par)
    ∧ (∀ props, normalizeFieldsList s.fields entries pre par = .ok props →
      props.map Prod.fst = s.fields.map Prod.fst) := by
  cases s with
  | mk n sfields allowExtra =>
    refine ⟨?_, ?_, ?_⟩
    · intro k ks hx hae
      simp only [Schema.fields] at hx
      simp only [Schema.allowExtra] at hae
      simp [normalizeSchemaV, hx, hae]
    · intro hae
      simp only [Schema.allowExtra] at hae
      simp only [Schema.fields]
      rcases hx : extraKeysOf entries (sfields.map Prod.fst) with _ | ⟨k, ks⟩ <;>
        simp [normalizeSchemaV, hx, hae]
    · intro props h
      exact normalizeFieldsList_keys _ _ _ _ _ h

/-- Witness for the amended C5: a schema with `__allow_extra__ = False`
and one declared field `foo` rejects the undeclared key `bar` with a
`PropertyError` naming it, and a successful property bag is keyed only by
`foo`. -/
theorem c5_extra_keys_by_name_witness :
    normalizeSchemaV aliasSchema (.vdict [("bar", .vint 1)]) none (some "") =
      .error (.propertyError "Encountered unexpected key: bar")
    ∧ [("foo", Value.vint 1)].map Prod.fst = aliasSchema.fields.map Prod.fst := by
  constructor
  · exact (c5_extra_keys_by_name aliasSchema [("bar", .vint 1)] none (some "")).1
      "bar" [] (by rfl) (by rfl)
  · exact (c5_extra_keys_by_name aliasSchema [("@foo", .vint 1)] none (some "")).2.2
      [("foo", Value.vint 1)] (by rfl)

/-- Helper: a `None` value short-circuits every step of a (non-list)
nullable field's coercion chain. -/
theorem chainSteps_null (ts : List TypeStep) (f : FieldS) (prefixed : String)
    (par : Option String) (hnb : f.nullable = true) (hil : f.isList = false) :
    chainSteps f ts .vnull prefixed par = .ok .vnull := by
  induction ts with
  | nil => rfl
  | cons t rest ih =>
    simp only [chainSteps, hil, Bool.false_eq_true, if_false, normalizeFieldBase,
      invalidType, hnb, Bool.not_true, Bool.false_eq_true, if_false,
      Bind.bind, Except.bind]
    exact ih

/-- C6: a field with an explicit `default=None` and `nullable=False`
fails normalization with a `ValidationError` when its key is absent (the
explicit null default is still put through the nullable check), whereas a
field with no default (the `NotSpecified` sentinel) and `required=False`
yields `None` without any error when its key is absent, whatever its
coercion chain, validators and choices. -/
theorem c6_default_sentinel (t : TypeStep) (ts ts2 : List TypeStep)
    (vs : List (Value → Except String Bool)) (cs : Option (List Value))
    (name : String) (entries : List (String × Value)) (par : Option String)
    (habs : lookupV name entries = none) :
    (fieldNormalize (.mk (t :: ts) false (some .vnull) false none vs cs false)
        entries name none par
      = .error (.validationError ("Property " ++ name ++ " is not of type " ++ t.tname)))
    ∧ (fieldNormalize (.mk ts2 false none true none vs cs false) entries name none par
      = .ok (name, .vnull)) := by
  constructor
  · simp [fieldNormalize, habs, chainSteps, normalizeFieldBase, invalidType,
      FieldS.isList, FieldS.nullable, Bind.bind, Except.bind, dottedName]
  · have hc := chainSteps_null ts2 (FieldS.mk ts2 false none true none vs cs false)
      (dottedName none name) par rfl rfl
    simp [fieldNormalize, habs, hc, fieldValidate, Bind.bind, Except.bind]

/-- Witness for C6 at a concrete `int` field named `x` and the empty
mapping. -/
theorem c6_default_sentinel_witness :
    fieldNormalize (.mk [.tInt] false (some .vnull) false none [] none false) [] "x" none none
      = .error (.validationError "Property x is not of type int")
    ∧ fieldNormalize (.mk [.tInt] false none true none [] none false) [] "x" none none
      = .ok ("x", .vnull) := by
  have h := c6_default_sentinel .tInt [] [.tInt] [] none "x" [] none (by rfl)
  exact ⟨h.1, h.2⟩

/-- Helper: Python `in _TRUTHY` membership as a disjunction: the literal
members, plus (by Python numeric `==`) every float equal to `1`. -/
theorem valueMem_truthy (v : Value) :
    valueMem v truthyVals = true ↔
      (v = .vint 1 ∨ v = .vstr "true" ∨ v = .vstr "True" ∨ v = .vstr "yes" ∨
       v = .vstr "1" ∨ v = .vbool true ∨ ∃ r, v = .vfloat 1 r) := by
  cases v with
  | vbool b => cases b <;> simp [valueMem, Value.beq, truthyVals]
  | vnull => simp [valueMem, Value.beq, truthyVals]
  | vint n => simp [valueMem, Value.beq, truthyVals]
  | vfloat q r => simp [valueMem, Value.beq, truthyVals, Int.cast_one]
  | vstr s0 => simp [valueMem, Value.beq, truthyVals]
  | vlist xs => simp [valueMem, Value.beq, truthyVals]
  | vdict es => simp [valueMem, Value.beq, truthyVals]
  | vrec n p ps => simp [valueMem, Value.beq, truthyVals]

/-- Helper: Python `in _FALSEY` membership as a disjunction: the literal
members, plus (by Python numeric `==`) every float equal to `0`. -/
theorem valueMem_falsey (v : Value) :
    valueMem v falseyVals = true ↔
      (v = .vint 0 ∨ v = .vstr "false" ∨ v = .vstr "False" ∨ v = .vstr "no" ∨
       v = .vstr "0" ∨ v = .vbool false ∨ ∃ r, v = .vfloat 0 r) := by
  cases v with
  | vbool b => cases b <;> simp [valueMem, Value.beq, falseyVals]
  | vnull => simp [valueMem, Value.beq, falseyVals]
  | vint n => simp [valueMem, Value.beq, falseyVals]
  | vfloat q r => simp [valueMem, Value.beq, falseyVals, Int.cast_zero]
  | vstr s0 => simp [valueMem, Value.beq, falseyVals]
  | vlist xs => simp [valueMem, Value.beq, falseyVals]
  | vdict es => simp [valueMem, Value.beq, falseyVals]
  | vrec n p ps => simp [valueMem, Value.beq, falseyVals]

/-- C7 as amended: for a field whose coercion step is `bool` (taken
non-nullable so that `None` is covered by the failure clause like every
other non-listed input), membership in `_TRUTHY`/`_FALSEY` is by Python
`==`, so each value equal to a member of `_TRUTHY` (the listed inputs,
and any float equal to `1`) normalizes to `True`, each value equal to a
member of `_FALSEY` normalizes to `False`, and every input equal to no
member of either set fails with a path-qualified `ValidationError`.
The original claim's "every other input fails" clause is refuted by
`c7_float_counterexample` (`1.0` coerces to `True`). -/
theorem c7_bool_coercion (req : Bool) (dflt : Option Value) (name : String)
    (par : Option String) (v : Value) :
    (valueMem v truthyVals = true →
      fieldNormalize (.mk [.tBool] req dflt false none [] none false) [(name, v)] name none par
        = .ok (name, .vbool true))
    ∧ (valueMem v falseyVals = true →
      fieldNormalize (.mk [.tBool] req dflt false none [] none false) [(name, v)] name none par
        = .ok (name, .vbool false))
    ∧ (valueMem v truthyVals = false → valueMem v falseyVals = false →
      fieldNormalize (.mk [.tBool] req dflt false none [] none false) [(name, v)] name none par
        = .error (.validationError ("Property " ++ name ++ " is not of type bool"))) := by
  refine ⟨?_, ?_, ?_⟩
  · intro h
    rcases (valueMem_truthy v).mp h with h1|h1|h1|h1|h1|h1|⟨r, h1⟩ <;> subst h1 <;>
      simp [fieldNormalize, lookupV, chainSteps, normalizeFieldBase, invalidType,
        coerceValue, coerceBool, isInstanceOf, TypeStep.isClassStep, valueMem, Value.beq,
        truthyVals, falseyVals, fieldValidate, fieldValidators, FieldS.isList,
        FieldS.nullable, FieldS.validators, FieldS.choices, dottedName,
        Int.cast_one, Int.cast_zero, Bind.bind, Except.bind]
  · intro h
    rcases (valueMem_falsey v).mp h with h1|h1|h1|h1|h1|h1|⟨r, h1⟩ <;> subst h1 <;>
      simp [fieldNormalize, lookupV, chainSteps, normalizeFieldBase, invalidType,
        coerceValue, coerceBool, isInstanceOf, TypeStep.isClassStep, valueMem, Value.beq,
        truthyVals, falseyVals, fieldValidate, fieldValidators, FieldS.isList,
        FieldS.nullable, FieldS.validators, FieldS.choices, dottedName,
        Int.cast_one, Int.cast_zero, Bind.bind, Except.bind]
  · intro h1 h2
    cases v <;>
      simp_all [fieldNormalize, lookupV, chainSteps, normalizeFieldBase, invalidType,
        coerceValue, coerceBool, isInstanceOf, TypeStep.isClassStep, valueMem, Value.beq,
        truthyVals, falseyVals, fieldValidate, fieldValidators, FieldS.isList,
        FieldS.nullable, FieldS.validators, FieldS.choices, dottedName, TypeStep.tname,
        Int.cast_one, Int.cast_zero, Bind.bind, Except.bind] <;>
      (rw [String.append_assoc]; rfl)

/-- C7 counterexample, refuting the original claim's clause that every
input outside the two listed sets fails with a `ValidationError`: the
float `1.0` is not a listed input, but `1.0 == 1` makes `1.0 in _TRUTHY`
hold in CPython, so a bool field fed `1.0` normalizes to `True` (and
`0.0` to `False`) instead of failing. -/
theorem c7_float_counterexample :
    fieldNormalize (.mk [.tBool] false none false none [] none false)
      [("flag", .vfloat 1 "1.0")] "flag" none none = .ok ("flag", .vbool true)
    ∧ fieldNormalize (.mk [.tBool] false none false none [] none false)
      [("flag", .vfloat 0 "0.0")] "flag" none none = .ok ("flag", .vbool false) :=
  ⟨rfl, rfl⟩

/-- Witness for the amended C7 at `"yes"`, `0` and `"foo"`. -/
theorem c7_bool_coercion_witness :
    fieldNormalize (.mk [.tBool] false none false none [] none false) [("flag", .vstr "yes")]
      "flag" none none = .ok ("flag", .vbool true)
    ∧ fieldNormalize (.mk [.tBool] false none false none [] none false) [("flag", .vint 0)]
      "flag" none none = .ok ("flag", .vbool false)
    ∧ fieldNormalize (.mk [.tBool] false none false none [] none false) [("flag", .vstr "foo")]
      "flag" none none = .error (.validationError "Property flag is not of type bool") :=
  ⟨(c7_bool_coercion false none "flag" none (.vstr "yes")).1 (by rfl),
   (c7_bool_coercion false none "flag" none (.vint 0)).2.1 (by rfl),
   (c7_bool_coercion false none "flag" none (.vstr "foo")).2.2 (by rfl) (by rfl)⟩

/-- Helper: lookup distributes over list append, first list wins. -/
theorem lookupF_append (x : String) (a b : List (String × FieldS)) :
    lookupF x (a ++ b) =
      (match lookupF x a with
       | some f => some f
       | none => lookupF x b) := by
  induction a with
  | nil => simp [lookupF]
  | cons kf rest ih =>
    obtain ⟨k, f⟩ := kf
    by_cases hk : (k == x) = true <;> simp [lookupF, hk, ih]

/-- Helper: lookup in the in-place-updated part of `dict.update`. -/
theorem lookupF_update_map (x : String) (d u : List (String × FieldS)) :
    lookupF x (d.map (fun kv => match lookupF kv.1 u with
        | some f => (kv.1, f)
        | none => kv)) =
      (match lookupF x d with
       | none => none
       | some fd =>
         match lookupF x u with
         | some fu => some fu
         | none => some fd) := by
  induction d with
  | nil => simp [lookupF]
  | cons kf rest ih =>
    obtain ⟨k, g⟩ := kf
    by_cases hk : (k == x) = true
    · have hx : k = x := by simpa using hk
      subst hx
      rcases hu : lookupF k u with _ | fu <;> simp [lookupF, hu, ih]
    · rcases hu : lookupF k u with _ | fu <;> simp [lookupF, hk, hu, ih]

/-- Helper: lookup in the appended fresh-keys part of `dict.update`. -/
theorem lookupF_filter_fresh (x : String) (d u : List (String × FieldS)) :
    lookupF x (u.filter (fun kv => (lookupF kv.1 d).isNone)) =
      (match lookupF x d with
       | some _ => none
       | none => lookupF x u) := by
  induction u with
  | nil => cases lookupF x d <;> simp [lookupF]
  | cons kf rest ih =>
    obtain ⟨k, g⟩ := kf
    rw [List.filter_cons]
    by_cases hk : (k == x) = true
    · have hkx : k = x := by simpa using hk
      subst hkx
      rcases hd : lookupF k d with _ | fd <;> simp [hd, lookupF, ih]
    · rcases hd : lookupF k d with _ | fd <;>
        rcases hkd : lookupF x d with _ | fx <;>
        simp [hd, hkd, lookupF, hk, ih]

/-- Helper: `dict.update` semantics on lookups — the updating dict wins. -/
theorem lookupF_dictUpdate (x : String) (d u : List (String × FieldS)) :
    lookupF x (dictUpdate d u) =
      (match lookupF x u with
       | some fu => some fu
       | none => lookupF x d) := by
  unfold dictUpdate
  rw [lookupF_append, lookupF_update_map, lookupF_filter_fresh]
  rcases hd : lookupF x d with _ | fd <;> rcases hu : lookupF x u with _ | fu <;> simp

/-- C8: the field table built by `ConfigMeta.__new__` for
`__inherits__ = [ParentA, ParentB]` resolves a name declared by several
parents to the FIRST-listed parent's field (the reversed-walk update
order makes earlier-declared parents overwrite later ones), and a field
declared directly on the class overrides every inherited one. -/
theorem c8_inheritance_precedence (pa pb own : List (String × FieldS)) (x : String) :
    (∀ fo, lookupF x own = some fo → lookupF x (buildFields [pa, pb] own) = some fo)
    ∧ (lookupF x own = none → ∀ fa, lookupF x pa = some fa →
        lookupF x (buildFields [pa, pb] own) = some fa)
    ∧ (lookupF x own = none → lookupF x pa = none →
        lookupF x (buildFields [pa, pb] own) = lookupF x pb) := by
  have hb : buildFields [pa, pb] own = dictUpdate (dictUpdate (dictUpdate [] pb) pa) own := by
    simp [buildFields]
  refine ⟨?_, ?_, ?_⟩
  · intro fo ho
    rw [hb, lookupF_dictUpdate, ho]
  · intro ho fa ha
    rw [hb, lookupF_dictUpdate, ho, lookupF_dictUpdate, ha]
  · intro ho ha
    rw [hb, lookupF_dictUpdate, ho, lookupF_dictUpdate, ha, lookupF_dictUpdate]
    rcases hpb : lookupF x pb with _ | fb <;> simp [lookupF]

/-- Witness for C8: both parents declare `x` with different defaults; the
merged table resolves `x` to ParentA's field, unless the class redeclares
`x` locally, in which case the local field wins. -/
theorem c8_inheritance_precedence_witness :
    lookupF "x" (buildFields [[("x", fParentA)], [("x", fParentB)]] []) = some fParentA
    ∧ lookupF "x" (buildFields [[("x", fParentA)], [("x", fParentB)]] [("x", fOwn)]) =
      some fOwn :=
  ⟨(c8_inheritance_precedence [("x", fParentA)] [("x", fParentB)] [] "x").2.1
      (by rfl) fParentA (by rfl),
   (c8_inheritance_precedence [("x", fParentA)] [("x", fParentB)] [("x", fOwn)] "x").1
      fOwn (by rfl)⟩

/-- Helper: validators that return `True` pass control to the rest of the
chain. -/
theorem runValidators_append_ok (good tail : List (Value → Except String Bool))
    (v : Value) (p : String) (hgood : ∀ g ∈ good, g v = .ok true) :
    runValidators (good ++ tail) v p = runValidators tail v p := by
  induction good with
  | nil => rfl
  | cons g0 rest ih =>
    have h0 : g0 v = .ok true := hgood g0 (List.mem_cons_self g0 rest)
    simp only [List.cons_append, runValidators, h0]
    exact ih fun g hg => hgood g (List.mem_cons_of_mem g0 hg)

/-- C10: validators run only when the field exists (when the key is
absent and the default is the sentinel, `Field.normalize` calls
`validate` with `exists=False`, which returns at once, whatever
validators are installed); with `exists=True`, the first validator of the
chain to return `False` or raise fails the field with a path-qualified
`ValidationError`, and a raised `ValidationError`'s message is preserved
inside the re-wrapped message.  (A validator returning `False` raises
inside the `try`, so its own `except` clause wraps the generic message a
second time.) -/
theorem c10_validator_chain (f : FieldS) (v : Value) (p : String) :
    (fieldValidate f v p false = .ok ())
    ∧ (∀ good g rest, fieldValidators f = good ++ g :: rest →
        (∀ h ∈ good, h v = .ok true) →
        ((∀ m, g v = .error m →
          fieldValidate f v p true =
            .error (.validationError ("Field '" ++ p ++ "' is invalid: " ++ m)))
        ∧ (g v = .ok false →
          fieldValidate f v p true =
            .error (.validationError ("Field '" ++ p ++ "' is invalid: " ++
              ("Field '" ++ p ++ "' is invalid"))))))
    ∧ (∀ (entries : List (String × Value)) (name : String) (pre par : Option String)
        (w : Value),
        f.key = none → f.required = false → f.default = none →
        lookupV name entries = none →
        chainSteps f f.types .vnull (dottedName pre name) par = .ok w →
        fieldNormalize f entries name pre par = .ok (name, w)) := by
  refine ⟨by simp [fieldValidate], ?_, ?_⟩
  · intro good g rest hsplit hgood
    have hne : (fieldValidators f).isEmpty = false := by
      rw [hsplit]
      cases good <;> rfl
    have hrun : fieldValidate f v p true = runValidators (fieldValidators f) v p := by
      simp [fieldValidate, hne]
    rw [hrun, hsplit, runValidators_append_ok good (g :: rest) v p hgood]
    constructor
    · intro m hm
      simp [runValidators, hm]
    · intro hm
      simp [runValidators, hm]
  · intro entries name pre par w hkey hreq hdflt habs hchain
    cases f with
    | mk ts req dflt nb key vals chs il =>
      simp only [FieldS.key] at hkey
      simp only [FieldS.required] at hreq
      simp only [FieldS.default] at hdflt
      simp only [FieldS.types] at hchain
      subst hkey hreq hdflt
      simp only [fieldNormalize, habs, Bool.false_eq_true, if_false, Option.getD,
        Bind.bind, Except.bind, hchain]
      simp [fieldValidate]

/-- Witness for C10: with validators `[always-true, raises "Wrong"]`, the
non-existing field skips validation and the existing one fails with the
wrapped message. -/
theorem c10_validator_chain_witness :
    fieldValidate twoValidatorField (.vstr "v") "opt" false = .ok ()
    ∧ fieldValidate twoValidatorField (.vstr "v") "opt" true =
      .error (.validationError "Field 'opt' is invalid: Wrong") := by
  have h := c10_validator_chain twoValidatorField (.vstr "v") "opt"
  refine ⟨h.1, (h.2.1 [vAlwaysTrue] vRaisesWrong [] (by rfl) ?_).1 "Wrong" (by rfl)⟩
  intro g hg
  rw [List.mem_singleton] at hg
  subst hg
  rfl

theorem entriesNoParent_of_forall (props : List (String × Value))
    (h : ∀ kv ∈ props, recsNoParentV kv.2 = true) : entriesNoParent props = true := by
  induction props with
  | nil => rfl
  | cons kv rest ih =>
    obtain ⟨k, v⟩ := kv
    simp only [entriesNoParent]
    rw [Bool.and_eq_true]
    exact ⟨h (k, v) (by simp), ih fun p hp => h p (by simp [hp])⟩

theorem valueParOK_null (par : Option String) : valueParOK par .vnull = true := by
  cases par <;> rfl

theorem valueParOK_vint (par : Option String) (n : Int) : valueParOK par (.vint n) = true := by
  cases par <;> rfl

theorem valueParOK_vbool (par : Option String) (b : Bool) : valueParOK par (.vbool b) = true := by
  cases par <;> rfl

theorem valueParOK_vstr (par : Option String) (s : String) : valueParOK par (.vstr s) = true := by
  cases par <;> rfl

theorem valueParOK_vrec (par : Option String) (nm : String) (props : List (String × Value))
    (h : entriesNoParent props = true) :
    valueParOK par (.vrec nm par props) = true := by
  cases par <;> simp [valueParOK, recsNoParentV, depth1Par, h]

theorem listElems_pointwise (P : Value → Prop) (g : Value → String → Except Err Value)
    (hg : ∀ x pfx w, g x pfx = .ok w → P w) :
    ∀ (xs : List Value) (i : Nat) (prefixed : String) (ws : List Value),
      listElems g xs i prefixed = .ok ws → ∀ w ∈ ws, P w := by
  intro xs
  induction xs with
  | nil =>
    intro i prefixed ws h
    cases h
    simp
  | cons x rest ih =>
    intro i prefixed ws h
    simp only [listElems, Bind.bind, Except.bind] at h
    rcases hx : g x (prefixed ++ "." ++ natStr i) with e | w0 <;> rw [hx] at h
    · cases h
    · rcases hr : listElems g rest (i + 1) prefixed with e | ws0 <;> rw [hr] at h
      · cases h
      · cases h
        intro w hw
        rcases List.mem_cons.mp hw with h1 | h2
        · exact h1 ▸ hg x _ w0 hx
        · exact ih (i + 1) prefixed ws0 hr w h2

theorem coerceValue_int_shape (v w : Value) (h : coerceValue .tInt v = .ok w) :
    (∃ n, w = .vint n) ∨ (∃ b, w = .vbool b) := by
  cases v <;> simp [coerceValue, isInstanceOf, TypeStep.isClassStep] at h
  case vint n => exact Or.inl ⟨n, h.symm⟩
  case vfloat q r => exact Or.inl ⟨_, h.symm⟩
  case vbool b => exact Or.inr ⟨b, h.symm⟩
  case vstr s =>
    rcases hp : pyParseInt s with _ | n <;> rw [hp] at h <;> simp at h
    exact Or.inl ⟨n, h.symm⟩

theorem coerceValue_str_shape (v w : Value) (h : coerceValue .tStr v = .ok w) :
    ∃ s, w = .vstr s := by
  cases v <;> simp [coerceValue, isInstanceOf, TypeStep.isClassStep] at h <;>
    exact ⟨_, h.symm⟩

theorem coerceValue_bool_shape (v w : Value) (h : coerceValue .tBool v = .ok w) :
    ∃ b, w = .vbool b := by
  cases v <;>
    simp [coerceValue, coerceBool, isInstanceOf, TypeStep.isClassStep] at h <;>
    first
      | exact ⟨_, h.symm⟩
      | exact ⟨_, h⟩
      | (split at h <;> (try split at h) <;> simp at h <;>
          first
            | exact ⟨_, h⟩
            | exact ⟨_, h.symm⟩)

theorem base_parOK (B : Nat)
    (ih : ∀ s', sizeOf s' < B → noFuncSchema s' = true →
      ∀ cfg pre par props, normalizeSchemaV s' cfg pre par = .ok props →
        ∀ kv ∈ props, valueParOK par kv.2 = true)
    (f : FieldS) (t : TypeStep) (hB : sizeOf t ≤ B) (hnf : noFuncStep t = true)
    (v : Value) (prefixed : String) (par : Option String) (w : Value)
    (h : normalizeFieldBase f t v prefixed par = .ok w) :
    valueParOK par w = true ∧ ∀ xs, w ≠ .vlist xs := by
  cases t with
  | tFunc fn fv => simp [noFuncStep] at hnf
  | tInt =>
    simp only [normalizeFieldBase] at h
    split at h
    · cases h
    · split at h
      · cases h
        exact ⟨valueParOK_null par, by simp⟩
      · rcases hc : coerceValue .tInt v with e | w0 <;> rw [hc] at h <;> cases h
        rcases coerceValue_int_shape v w hc with ⟨n, hn⟩ | ⟨b, hb⟩
        · exact ⟨hn ▸ valueParOK_vint par n, by simp [hn]⟩
        · exact ⟨hb ▸ valueParOK_vbool par b, by simp [hb]⟩
  | tStr =>
    simp only [normalizeFieldBase] at h
    split at h
    · cases h
    · split at h
      · cases h
        exact ⟨valueParOK_null par, by simp⟩
      · rcases hc : coerceValue .tStr v with e | w0 <;> rw [hc] at h <;> cases h
        obtain ⟨s, hs⟩ := coerceValue_str_shape v w hc
        exact ⟨hs ▸ valueParOK_vstr par s, by simp [hs]⟩
  | tBool =>
    simp only [normalizeFieldBase] at h
    split at h
    · cases h
    · split at h
      · cases h
        exact ⟨valueParOK_null par, by simp⟩
      · rcases hc : coerceValue .tBool v with e | w0 <;> rw [hc] at h <;> cases h
        obtain ⟨b, hb⟩ := coerceValue_bool_shape v w hc
        exact ⟨hb ▸ valueParOK_vbool par b, by simp [hb]⟩
  | tSchema s' =>
    simp only [normalizeFieldBase, Bind.bind, Except.bind] at h
    split at h
    · cases h
    · split at h
      · cases h
        exact ⟨valueParOK_null par, by simp⟩
      · rcases hp : normalizeSchemaV s' v prefixed none with e | props <;> rw [hp] at h
        · cases h
        · cases h
          have hsz : sizeOf s' < B := by
            have h1 : sizeOf s' < sizeOf (TypeStep.tSchema s') := by simp
            omega
          have hnfs : noFuncSchema s' = true := by simpa [noFuncStep] using hnf
          have hall : ∀ kv ∈ props, recsNoParentV kv.2 = true := by
            intro kv hkv
            have := ih s' hsz hnfs v prefixed none props hp kv hkv
            simpa [valueParOK] using this
          exact ⟨valueParOK_vrec par s'.name props (entriesNoParent_of_forall props hall),
            by simp⟩

theorem listNoParent_of_forall (ws : List Value)
    (h : ∀ w ∈ ws, recsNoParentV w = true) : listNoParent ws = true := by
  induction ws with
  | nil => rfl
  | cons w rest ih =>
    simp only [listNoParent]
    rw [Bool.and_eq_true]
    exact ⟨h w (by simp), ih fun u hu => h u (by simp [hu])⟩

theorem normalizeListField_shape (f : FieldS) (g : Value → String → Except Err Value)
    (v : Value) (prefixed : String) (w0 : Value)
    (h : normalizeListField f g v prefixed = .ok w0) :
    ∃ xs ws, listElems g xs 0 prefixed = .ok ws ∧ w0 = .vlist ws := by
  cases v with
  | vlist xs =>
    simp only [normalizeListField, Bind.bind, Except.bind] at h
    split at h
    · cases h
    · rcases he : listElems g xs 0 prefixed with e | ws <;> rw [he] at h
      · cases h
      · cases h
        exact ⟨xs, ws, he, rfl⟩
  | vnull =>
    simp only [normalizeListField, Bind.bind, Except.bind] at h
    split at h
    · cases h
    · rcases he : listElems g [] 0 prefixed with e | ws <;> rw [he] at h
      · cases h
      · cases h
        exact ⟨[], ws, he, rfl⟩
  | vbool b => simp [normalizeListField, isListValue] at h
  | vint n => simp [normalizeListField, isListValue] at h
  | vfloat q r => simp [normalizeListField, isListValue] at h
  | vstr s => simp [normalizeListField, isListValue] at h
  | vdict es => simp [normalizeListField, isListValue] at h
  | vrec nm p ps => simp [normalizeListField, isListValue] at h

theorem elem_parOK_of (par : Option String) (w : Value)
    (hok : valueParOK par w = true) (hsh : ∀ xs, w ≠ .vlist xs) :
    elemParOK par w = true := by
  cases par with
  | none => exact hok
  | some a =>
    cases w with
    | vlist xs => exact absurd rfl (hsh xs)
    | vrec nm p ps => simpa [valueParOK, depth1Par, elemParOK] using hok
    | vnull => simpa [valueParOK, depth1Par, elemParOK] using hok
    | vbool b => simpa [valueParOK, depth1Par, elemParOK] using hok
    | vint n => simpa [valueParOK, depth1Par, elemParOK] using hok
    | vfloat q r => simpa [valueParOK, depth1Par, elemParOK] using hok
    | vstr s => simpa [valueParOK, depth1Par, elemParOK] using hok
    | vdict es => simpa [valueParOK, depth1Par, elemParOK] using hok

theorem vlist_parOK (par : Option String) (ws : List Value)
    (h : ∀ w ∈ ws, elemParOK par w = true) :
    valueParOK par (.vlist ws) = true := by
  cases par with
  | none =>
    simp only [valueParOK, recsNoParentV]
    refine listNoParent_of_forall ws ?_
    intro w hw
    exact h w hw
  | some a =>
    simp only [valueParOK, depth1Par, List.all_eq_true]
    intro w hw
    have h2 := h w hw
    cases w <;> simpa [elemParOK] using h2

theorem chain_parOK (B : Nat)
    (ih : ∀ s', sizeOf s' < B → noFuncSchema s' = true →
      ∀ cfg pre par props, normalizeSchemaV s' cfg pre par = .ok props →
        ∀ kv ∈ props, valueParOK par kv.2 = true)
    (f : FieldS) :
    ∀ (ts : List TypeStep), sizeOf ts ≤ B → noFuncSteps ts = true → ts ≠ [] →
      ∀ v prefixed par w, chainSteps f ts v prefixed par = .ok w →
        valueParOK par w = true := by
  intro ts
  induction ts with
  | nil =>
    intro _ _ hne
    exact absurd rfl hne
  | cons t rest ihts =>
    intro hB hnf _ v prefixed par w h
    have hB' : sizeOf t ≤ B := by
      have h1 : sizeOf t < sizeOf (t :: rest) := by simp; omega
      omega
    have hnft : noFuncStep t = true := by
      simp only [noFuncSteps, Bool.and_eq_true] at hnf
      exact hnf.1
    have hcont : ∀ w0, valueParOK par w0 = true →
        chainSteps f rest w0 prefixed par = .ok w → valueParOK par w = true := by
      intro w0 h0 hw
      cases rest with
      | nil =>
        simp only [chainSteps] at hw
        cases hw
        exact h0
      | cons t2 rest2 =>
        have hBr : sizeOf (t2 :: rest2) ≤ B := by
          have h1 : sizeOf (t2 :: rest2) < sizeOf (t :: t2 :: rest2) := by simp
          omega
        have hnfr : noFuncSteps (t2 :: rest2) = true := by
          simp only [noFuncSteps, Bool.and_eq_true] at hnf ⊢
          exact hnf.2
        exact ihts hBr hnfr (by simp) w0 prefixed par w hw
    simp only [chainSteps, Bind.bind, Except.bind] at h
    by_cases hil : f.isList = true
    · rw [if_pos hil] at h
      rcases hw0 : normalizeListField f (fun x pfx => normalizeFieldBase f t x pfx par)
          v prefixed with e | w0 <;> rw [hw0] at h
      · cases h
      · refine hcont w0 ?_ h
        obtain ⟨xs, ws, he, hws⟩ := normalizeListField_shape f _ v prefixed w0 hw0
        subst hws
        refine vlist_parOK par ws ?_
        refine listElems_pointwise _ _ ?_ xs 0 prefixed ws he
        intro x pfx u hu
        obtain ⟨h1, h2⟩ := base_parOK B ih f t hB' hnft x pfx par u hu
        exact elem_parOK_of par u h1 h2
    · rw [if_neg hil] at h
      rcases hw0 : normalizeFieldBase f t v prefixed par with e | w0 <;> rw [hw0] at h
      · cases h
      · exact hcont w0 (base_parOK B ih f t hB' hnft v prefixed par w0 hw0).1 h

theorem fieldNormalize_ok_inv (f : FieldS) (entries : List (String × Value)) (name : String)
    (pre par : Option String) (nw : String × Value)
    (h : fieldNormalize f entries name pre par = .ok nw) :
    ∃ v0 ex, chainSteps f f.types v0 (dottedName pre name) par = .ok nw.2 ∧
      fieldValidate f nw.2 (dottedName pre name) ex = .ok () ∧ nw.1 = name := by
  cases f with
  | mk ts req dflt nb key vals chs il =>
    simp only [fieldNormalize, Bind.bind, Except.bind] at h
    repeat split at h
    all_goals rw [eq_comm] at h
    all_goals repeat split at h
    all_goals rw [eq_comm] at h
    all_goals repeat split at h
    all_goals cases h
    all_goals exact ⟨_, _, by assumption, by assumption, rfl⟩

theorem field_parOK (B : Nat)
    (ih : ∀ s', sizeOf s' < B → noFuncSchema s' = true →
      ∀ cfg pre par props, normalizeSchemaV s' cfg pre par = .ok props →
        ∀ kv ∈ props, valueParOK par kv.2 = true)
    (f : FieldS) (hB : sizeOf f ≤ B) (hnf : noFuncField f = true)
    (entries : List (String × Value)) (name : String) (pre par : Option String)
    (nw : String × Value) (h : fieldNormalize f entries name pre par = .ok nw) :
    valueParOK par nw.2 = true := by
  obtain ⟨v0, ex, hch, _, _⟩ := fieldNormalize_ok_inv f entries name pre par nw h
  cases f with
  | mk ts req dflt nb key vals chs il =>
    have hts : sizeOf ts ≤ B := by
      have h1 : sizeOf ts < sizeOf (FieldS.mk ts req dflt nb key vals chs il) := by
        simp
        omega
      omega
    simp only [noFuncField, Bool.and_eq_true, Bool.not_eq_true'] at hnf
    have hne : ts ≠ [] := by
      intro hnil
      rw [hnil] at hnf
      simp at hnf
    have hsteps : noFuncSteps ts = true := hnf.2
    simp only [FieldS.types] at hch
    exact chain_parOK B ih _ ts hts hsteps hne v0 (dottedName pre name) par nw.2 hch

theorem fieldsList_parOK (B : Nat)
    (ih : ∀ s', sizeOf s' < B → noFuncSchema s' = true →
      ∀ cfg pre par props, normalizeSchemaV s' cfg pre par = .ok props →
        ∀ kv ∈ props, valueParOK par kv.2 = true) :
    ∀ fs, sizeOf fs ≤ B → noFuncFields fs = true →
      ∀ entries pre par props, normalizeFieldsList fs entries pre par = .ok props →
        ∀ kv ∈ props, valueParOK par kv.2 = true := by
  intro fs
  induction fs with
  | nil =>
    intro _ _ entries pre par props h kv hkv
    cases h
    simp at hkv
  | cons nf rest ihfs =>
    obtain ⟨n, f⟩ := nf
    intro hB hnf entries pre par props h kv hkv
    simp only [normalizeFieldsList, Bind.bind, Except.bind] at h
    rcases hp : fieldNormalize f entries n pre par with e | p <;> rw [hp] at h
    · cases h
    · rcases hr : normalizeFieldsList rest entries pre par with e | ps <;> rw [hr] at h
      · cases h
      · cases h
        simp only [noFuncFields, Bool.and_eq_true] at hnf
        rcases List.mem_cons.mp hkv with h1 | h2
        · have hfB : sizeOf f ≤ B := by
            have h1b : sizeOf f < sizeOf ((n, f) :: rest) := by
              simp
              omega
            omega
          rw [h1]
          exact field_parOK B ih f hfB hnf.1 entries n pre par p hp
        · have hrB : sizeOf rest ≤ B := by
            have h1 : sizeOf rest < sizeOf ((n, f) :: rest) := by simp
            omega
          exact ihfs hrB hnf.2 entries pre par ps hr kv h2

theorem schema_parOK :
    ∀ (N : Nat) (s : Schema), sizeOf s < N → noFuncSchema s = true →
      ∀ cfg pre par props, normalizeSchemaV s cfg pre par = .ok props →
        ∀ kv ∈ props, valueParOK par kv.2 = true := by
  intro N
  induction N with
  | zero =>
    intro s hs
    omega
  | succ N ihN =>
    intro s hs hnf cfg pre par props h kv hkv
    cases s with
    | mk n sfields ae =>
      have hfsB : sizeOf sfields ≤ N := by
        have h1 : sizeOf sfields < sizeOf (Schema.mk n sfields ae) := by
          simp
          omega
        omega
      have hnff : noFuncFields sfields = true := by
        simpa [noFuncSchema] using hnf
      cases cfg with
      | vdict entries =>
        simp only [normalizeSchemaV] at h
        split at h
        · split at h
          · cases h
          · exact fieldsList_parOK N ihN sfields hfsB hnff entries pre par props h kv hkv
        · exact fieldsList_parOK N ihN sfields hfsB hnff entries pre par props h kv hkv
      | vnull => cases h
      | vbool b => cases h
      | vint m => cases h
      | vfloat q r => cases h
      | vstr s => cases h
      | vlist xs => cases h
      | vrec nm p ps => cases h

/-- C4: amended parent-reference invariant. For a successful top-level
construction from a plain mapping (function-free schema), every direct field
value satisfies `depth1Par ""`: a direct nested record (or each record element
of a direct list field) carries `parent = some ""` (the top-level record being
built), while records nested any deeper carry no parent at all — contradicting
the claim that the parent back-reference is set at every nesting depth. -/
theorem c4_parent_depth (s : Schema) (cfg props : List (String × Value))
    (hnf : noFuncSchema s = true)
    (h : configInit s (.raw cfg) none = .ok (.vrec s.name none props)) :
    props.all (fun kv => depth1Par "" kv.2) = true := by
  simp only [configInit, Bind.bind, Except.bind] at h
  rcases hp : normalizeSchemaV s (.vdict cfg) none (some "") with e | props' <;> rw [hp] at h
  · cases h
  · cases h
    rw [List.all_eq_true]
    intro kv hkv
    have := schema_parOK (sizeOf s + 1) s (by omega) hnf _ _ _ _ hp kv hkv
    simpa [valueParOK] using this

/-- Witness: `deepSchema` (three levels) — the depth-1 child carries
`parent = some ""` but the depth-2 grandchild record has no parent. -/
theorem c4_parent_depth_witness :
    configInit deepSchema (.raw [("child", .vdict [("gc", .vdict [("v", .vint 1)])])]) none =
      .ok (.vrec "Deep" none
        [("child", .vrec "Mid" (some "")
          [("gc", .vrec "Inner2" none [("v", .vint 1)])])])
    ∧ ([("child", Value.vrec "Mid" (some "")
          [("gc", .vrec "Inner2" none [("v", .vint 1)])])].all
        (fun kv => depth1Par "" kv.2)) = true :=
  ⟨rfl, c4_parent_depth deepSchema [("child", .vdict [("gc", .vdict [("v", .vint 1)])])]
    [("child", .vrec "Mid" (some "") [("gc", .vrec "Inner2" none [("v", .vint 1)])])]
    (by rfl) (by rfl)⟩

/-- The `to_dict` loop preserves the property keys, in order. -/
theorem recToDict_keys : ∀ (props d : List (String × Value)), recToDict props = .ok d →
    d.map Prod.fst = props.map Prod.fst := by
  intro props
  induction props with
  | nil =>
    intro d h
    cases h
    rfl
  | cons kv rest ih =>
    obtain ⟨k, v⟩ := kv
    intro d h
    simp only [recToDict, Bind.bind, Except.bind] at h
    rcases hp : propToDict v with e | w <;> rw [hp] at h
    · cases h
    · rcases hr : recToDict rest with e | ds <;> rw [hr] at h
      · cases h
      · cases h
        simp [ih ds hr]

/-- Membership implies Python `in` (list `contains`) for string keys. -/
theorem contains_of_mem_str (k : String) : ∀ (l : List String), k ∈ l → l.contains k = true := by
  intro l
  induction l with
  | nil =>
    intro h
    simp at h
  | cons a rest ih =>
    intro h
    rcases List.mem_cons.mp h with h1 | h2
    · subst h1
      simp [List.contains_cons]
    · simp only [List.contains_cons, Bool.or_eq_true]
      exact Or.inr (ih h2)

/-- In a mapping with pairwise distinct keys, looking up any entry's key
finds that entry's value. -/
theorem lookupV_self_of_distinct :
    ∀ (l : List (String × Value)), keysDistinct (l.map Prod.fst) = true →
      ∀ kv ∈ l, lookupV kv.1 l = some kv.2 := by
  intro l
  induction l with
  | nil =>
    intro _ kv hkv
    simp at hkv
  | cons hd rest ih =>
    obtain ⟨k, v⟩ := hd
    intro hdist kv hkv
    simp only [List.map_cons, keysDistinct, Bool.and_eq_true, Bool.not_eq_true'] at hdist
    rcases List.mem_cons.mp hkv with h1 | h2
    · subst h1
      simp [lookupV]
    · have hne : (k == kv.1) = false := by
        cases hkb : (k == kv.1)
        · rfl
        · have hk : k = kv.1 := eq_of_beq hkb
          have hmem : kv.1 ∈ rest.map Prod.fst := List.mem_map_of_mem Prod.fst h2
          have hcont := contains_of_mem_str kv.1 (rest.map Prod.fst) hmem
          rw [hk, hcont] at hdist
          simp at hdist
      simp only [lookupV, hne]
      simp only [Bool.false_eq_true, if_false]
      exact ih hdist.2 kv h2

/-- A mapping whose every key is a declared field name has no extra keys. -/
theorem extraKeysOf_nil_of_sub (entries : List (String × Value)) (names : List String)
    (hsub : ∀ k ∈ entries.map Prod.fst, names.contains k = true) :
    extraKeysOf entries names = [] := by
  simp only [extraKeysOf]
  rw [List.filter_eq_nil_iff]
  intro k hk
  simpa using hsub k hk

/-- Assembler for a re-normalization run: for an unaliased field whose
lookup succeeds and whose chain and validation succeed, `Field.normalize`
returns the chained value keyed by the field name. -/
theorem fieldNormalize_present (ts : List TypeStep) (req : Bool) (dflt : Option Value)
    (nb : Bool) (vals : List (Value → Except String Bool)) (chs : Option (List Value))
    (il : Bool) (d : List (String × Value)) (name : String) (pre par : Option String)
    (w' v2 : Value) (hlook : lookupV name d = some w')
    (hch : chainSteps (FieldS.mk ts req dflt nb none vals chs il) ts w'
      (dottedName pre name) par = .ok v2)
    (hval : fieldValidate (FieldS.mk ts req dflt nb none vals chs il) v2
      (dottedName pre name) true = .ok ()) :
    fieldNormalize (FieldS.mk ts req dflt nb none vals chs il) d name pre par =
      .ok (name, v2) := by
  simp only [fieldNormalize, Bind.bind, Except.bind, hlook, hch, hval]

/-- Per-step round trip for a plain (function-free, single) coercion step:
a successful base output is never a `list`, and feeding its `to_dict`
image back through the same step reproduces it exactly.  Primitive outputs
are `isinstance` fixpoints; a nested record re-enters through its
dictified property bag by the schema-level induction hypothesis. -/
theorem base_shape_rt (B : Nat)
    (ih : ∀ s', sizeOf s' < B → plainSchema s' = true →
      ∀ entries pre par props, normalizeSchemaV s' (.vdict entries) pre par = .ok props →
        ∀ d, recToDict props = .ok d →
          normalizeSchemaV s' (.vdict d) pre par = .ok props)
    (f : FieldS) (t : TypeStep) (hB : sizeOf t ≤ B) (hp : plainStep t = true)
    (v : Value) (prefixed : String) (par : Option String) (w : Value)
    (h : normalizeFieldBase f t v prefixed par = .ok w) :
    (∀ ys, w ≠ .vlist ys) ∧
      ∀ w', propToDict w = .ok w' → normalizeFieldBase f t w' prefixed par = .ok w := by
  cases t with
  | tFunc fn fv => simp [plainStep] at hp
  | tInt =>
    simp only [normalizeFieldBase] at h
    split at h
    · cases h
    next hiv =>
      split at h
      · cases h
        have hnul : f.nullable = true := by simpa [invalidType] using hiv
        refine ⟨by simp, ?_⟩
        intro w' hw
        simp only [propToDict] at hw
        cases hw
        simp [normalizeFieldBase, invalidType, hnul]
      · rcases hc : coerceValue .tInt v with e | w0 <;> rw [hc] at h
        · cases h
        · cases h
          rcases coerceValue_int_shape v w hc with ⟨m, hm⟩ | ⟨b, hb⟩
          · subst hm
            refine ⟨by simp, ?_⟩
            intro w' hw
            simp only [propToDict] at hw
            cases hw
            rfl
          · subst hb
            refine ⟨by simp, ?_⟩
            intro w' hw
            simp only [propToDict] at hw
            cases hw
            rfl
  | tStr =>
    simp only [normalizeFieldBase] at h
    split at h
    · cases h
    next hiv =>
      split at h
      · cases h
        have hnul : f.nullable = true := by simpa [invalidType] using hiv
        refine ⟨by simp, ?_⟩
        intro w' hw
        simp only [propToDict] at hw
        cases hw
        simp [normalizeFieldBase, invalidType, hnul]
      · rcases hc : coerceValue .tStr v with e | w0 <;> rw [hc] at h
        · cases h
        · cases h
          obtain ⟨s0, hs0⟩ := coerceValue_str_shape v w hc
          subst hs0
          refine ⟨by simp, ?_⟩
          intro w' hw
          simp only [propToDict] at hw
          cases hw
          rfl
  | tBool =>
    simp only [normalizeFieldBase] at h
    split at h
    · cases h
    next hiv =>
      split at h
      · cases h
        have hnul : f.nullable = true := by simpa [invalidType] using hiv
        refine ⟨by simp, ?_⟩
        intro w' hw
        simp only [propToDict] at hw
        cases hw
        simp [normalizeFieldBase, invalidType, hnul]
      · rcases hc : coerceValue .tBool v with e | w0 <;> rw [hc] at h
        · cases h
        · cases h
          obtain ⟨b, hb⟩ := coerceValue_bool_shape v w hc
          subst hb
          refine ⟨by simp, ?_⟩
          intro w' hw
          simp only [propToDict] at hw
          cases hw
          rfl
  | tSchema s' =>
    simp only [normalizeFieldBase, Bind.bind, Except.bind] at h
    split at h
    · cases h
    next hiv =>
      split at h
      · cases h
        have hnul : f.nullable = true := by simpa [invalidType] using hiv
        refine ⟨by simp, ?_⟩
        intro w' hw
        simp only [propToDict] at hw
        cases hw
        simp [normalizeFieldBase, invalidType, hnul]
      · rcases hns : normalizeSchemaV s' v prefixed none with e | ps <;> rw [hns] at h
        · cases h
        · cases h
          have hsz : sizeOf s' < B := by
            have h1 : sizeOf s' < sizeOf (TypeStep.tSchema s') := by simp
            omega
          have hps : plainSchema s' = true := by simpa [plainStep] using hp
          refine ⟨by simp, ?_⟩
          intro w' hw
          simp only [propToDict, Bind.bind, Except.bind] at hw
          rcases hrd : recToDict ps with e | dps <;> rw [hrd] at hw
          · cases hw
          · cases hw
            cases v with
            | vdict entries0 =>
              have hih := ih s' hsz hps entries0 _ none ps hns dps hrd
              simp [normalizeFieldBase, invalidType, isInstanceOf, Bind.bind, Except.bind, hih]
            | vnull =>
              cases s' with
              | mk n2 sf2 ae2 => simp [normalizeSchemaV] at hns
            | vint m =>
              cases s' with
              | mk n2 sf2 ae2 => simp [normalizeSchemaV] at hns
            | vfloat q0 r0 =>
              cases s' with
              | mk n2 sf2 ae2 => simp [normalizeSchemaV] at hns
            | vbool b =>
              cases s' with
              | mk n2 sf2 ae2 => simp [normalizeSchemaV] at hns
            | vstr s0 =>
              cases s' with
              | mk n2 sf2 ae2 => simp [normalizeSchemaV] at hns
            | vlist xs =>
              cases s' with
              | mk n2 sf2 ae2 => simp [normalizeSchemaV] at hns
            | vrec nm p pps =>
              cases s' with
              | mk n2 sf2 ae2 => simp [normalizeSchemaV] at hns

/-- Element-loop round trip: re-running the per-element base logic on the
`to_dict` image of a normalized list (elementwise-dictified when any
element is a record, unchanged otherwise) reproduces the same elements. -/
theorem listElems_rt (g : Value → String → Except Err Value)
    (hg : ∀ x pfx w, g x pfx = .ok w →
      (∀ ys, w ≠ .vlist ys) ∧
        ∀ w', propToDict w = .ok w' → g w' pfx = .ok w) :
    ∀ (xs : List Value) (i : Nat) (prefixed : String) (ws ds : List Value),
      listElems g xs i prefixed = .ok ws →
      ((ws.any (fun x => match x with | .vrec _ _ _ => true | _ => false) = false ∧ ds = ws)
        ∨ listToDict ws = .ok ds) →
      listElems g ds i prefixed = .ok ws := by
  intro xs
  induction xs with
  | nil =>
    intro i prefixed ws ds h hd
    cases h
    rcases hd with ⟨_, rfl⟩ | hld
    · rfl
    · cases hld
      rfl
  | cons x rest ih =>
    intro i prefixed ws ds h hd
    simp only [listElems, Bind.bind, Except.bind] at h
    rcases hx : g x (prefixed ++ "." ++ natStr i) with e | w0 <;> rw [hx] at h
    · cases h
    · rcases hr : listElems g rest (i + 1) prefixed with e | wsr <;> rw [hr] at h
      · cases h
      · cases h
        rcases hd with ⟨hany, rfl⟩ | hld
        · simp only [List.any_cons, Bool.or_eq_false_iff] at hany
          have hpd : propToDict w0 = .ok w0 := by
            cases w0 with
            | vrec nm p ps => simp at hany
            | vlist ys => exact absurd rfl ((hg x _ _ hx).1 ys)
            | vnull => rfl
            | vint m => rfl
            | vfloat q0 r0 => rfl
            | vbool b => rfl
            | vstr s0 => rfl
            | vdict es => rfl
          have hg0 := (hg x _ w0 hx).2 w0 hpd
          have htl := ih (i + 1) prefixed wsr wsr hr (Or.inl ⟨hany.2, rfl⟩)
          have e1 : listElems g (w0 :: wsr) i prefixed =
              (g w0 (prefixed ++ "." ++ natStr i) >>=
                fun w => (listElems g wsr (i + 1) prefixed >>= fun ws0 => .ok (w :: ws0))) := rfl
          rw [e1, hg0, htl]
          rfl
        · cases w0 with
          | vrec nm p ps =>
            simp only [listToDict, Bind.bind, Except.bind] at hld
            rcases hrd : recToDict ps with e | d0 <;> rw [hrd] at hld
            · cases hld
            · rcases hlr : listToDict wsr with e | dsr <;> rw [hlr] at hld
              · cases hld
              · cases hld
                have hpd : propToDict (.vrec nm p ps) = .ok (.vdict d0) := by
                  simp only [propToDict, Bind.bind, Except.bind, hrd]
                have hg0 := (hg x _ _ hx).2 (.vdict d0) hpd
                have htl := ih (i + 1) prefixed wsr dsr hr (Or.inr hlr)
                have e1 : listElems g (Value.vdict d0 :: dsr) i prefixed =
                    (g (.vdict d0) (prefixed ++ "." ++ natStr i) >>=
                      fun w => (listElems g dsr (i + 1) prefixed >>= fun ws0 => .ok (w :: ws0))) := rfl
                rw [e1, hg0, htl]
                rfl
          | vnull =>
            simp only [listToDict] at hld
            cases hld
          | vint m =>
            simp only [listToDict] at hld
            cases hld
          | vfloat q0 r0 =>
            simp only [listToDict] at hld
            cases hld
          | vbool b =>
            simp only [listToDict] at hld
            cases hld
          | vstr s0 =>
            simp only [listToDict] at hld
            cases hld
          | vdict es =>
            simp only [listToDict] at hld
            cases hld
          | vlist ys =>
            simp only [listToDict] at hld
            cases hld

/-- `ListField` round trip for a plain step: re-normalizing the `to_dict`
image of a normalized list field reproduces the normalized list. -/
theorem list_rt (B : Nat)
    (ih : ∀ s', sizeOf s' < B → plainSchema s' = true →
      ∀ entries pre par props, normalizeSchemaV s' (.vdict entries) pre par = .ok props →
        ∀ d, recToDict props = .ok d →
          normalizeSchemaV s' (.vdict d) pre par = .ok props)
    (f : FieldS) (t : TypeStep) (hB : sizeOf t ≤ B) (hp : plainStep t = true)
    (v : Value) (prefixed : String) (par : Option String) (w w' : Value)
    (h : normalizeListField f (fun x pfx => normalizeFieldBase f t x pfx par) v prefixed = .ok w)
    (hw : propToDict w = .ok w') :
    normalizeListField f (fun x pfx => normalizeFieldBase f t x pfx par) w' prefixed = .ok w := by
  obtain ⟨xs, ws, he, hwl⟩ := normalizeListField_shape f _ v prefixed w h
  subst hwl
  have hg : ∀ x pfx w0, normalizeFieldBase f t x pfx par = .ok w0 →
      (∀ ys, w0 ≠ .vlist ys) ∧
        ∀ w1, propToDict w0 = .ok w1 → normalizeFieldBase f t w1 pfx par = .ok w0 :=
    fun x pfx w0 hx => base_shape_rt B ih f t hB hp x pfx par w0 hx
  simp only [propToDict] at hw
  split at hw
  next hany =>
    simp only [Bind.bind, Except.bind] at hw
    rcases hld : listToDict ws with e | ds <;> rw [hld] at hw
    · cases hw
    · cases hw
      have hel := listElems_rt _ hg xs 0 prefixed ws ds he (Or.inr hld)
      have e1 : normalizeListField f (fun x pfx => normalizeFieldBase f t x pfx par)
          (.vlist ds) prefixed =
          (listElems (fun x pfx => normalizeFieldBase f t x pfx par) ds 0 prefixed >>=
            fun ws0 => .ok (.vlist ws0)) := rfl
      rw [e1, hel]
      rfl
  next hany =>
    cases hw
    have hel := listElems_rt _ hg xs 0 prefixed ws ws he
      (Or.inl ⟨by simpa using hany, rfl⟩)
    have e1 : normalizeListField f (fun x pfx => normalizeFieldBase f t x pfx par)
        (.vlist ws) prefixed =
        (listElems (fun x pfx => normalizeFieldBase f t x pfx par) ws 0 prefixed >>=
          fun ws0 => .ok (.vlist ws0)) := rfl
    rw [e1, hel]
    rfl

/-- Field-level round trip: for a plain field, if the re-normalization
entries map the field's name to the `to_dict` image of its first
normalized value, `Field.normalize` reproduces the first output (the
`exists` flag may flip, but a plain field has no validators to notice). -/
theorem field_rt (B : Nat)
    (ih : ∀ s', sizeOf s' < B → plainSchema s' = true →
      ∀ entries pre par props, normalizeSchemaV s' (.vdict entries) pre par = .ok props →
        ∀ d, recToDict props = .ok d →
          normalizeSchemaV s' (.vdict d) pre par = .ok props)
    (f : FieldS) (hB : sizeOf f ≤ B) (hpf : plainField f = true)
    (entries : List (String × Value)) (name : String) (pre par : Option String)
    (nw : String × Value) (h : fieldNormalize f entries name pre par = .ok nw)
    (w' : Value) (hw : propToDict nw.2 = .ok w')
    (d : List (String × Value)) (hlook : lookupV name d = some w') :
    fieldNormalize f d name pre par = .ok nw := by
  obtain ⟨v0, ex, hch, hvv, hn1⟩ := fieldNormalize_ok_inv f entries name pre par nw h
  obtain ⟨n1, w2⟩ := nw
  have hn : name = n1 := hn1.symm
  subst hn
  cases f with
  | mk ts req dflt nb key vals chs il =>
    cases ts with
    | nil => simp [plainField] at hpf
    | cons t rest =>
      cases rest with
      | cons t2 r2 => simp [plainField] at hpf
      | nil =>
        cases key with
        | some k => simp [plainField] at hpf
        | none =>
          cases vals with
          | cons g0 gr => simp [plainField] at hpf
          | nil =>
            cases chs with
            | some cs => simp [plainField] at hpf
            | none =>
              have hstep : plainStep t = true := by simpa [plainField] using hpf
              have htB : sizeOf t ≤ B := by
                have h1 : sizeOf t < sizeOf (FieldS.mk [t] req dflt nb none [] none il) := by
                  simp
                  omega
                omega
              have hw2 : propToDict w2 = .ok w' := hw
              have hch2 : chainSteps (FieldS.mk [t] req dflt nb none [] none il) [t] v0
                  (dottedName pre name) par = .ok w2 := hch
              by_cases hil : il = true
              · subst hil
                have hch3 : (normalizeListField (FieldS.mk [t] req dflt nb none [] none true)
                      (fun x pfx =>
                        normalizeFieldBase (FieldS.mk [t] req dflt nb none [] none true) t x pfx par)
                      v0 (dottedName pre name) >>=
                    fun w => chainSteps (FieldS.mk [t] req dflt nb none [] none true) [] w
                      (dottedName pre name) par) = .ok w2 := hch2
                rcases hw1 : normalizeListField (FieldS.mk [t] req dflt nb none [] none true)
                    (fun x pfx =>
                      normalizeFieldBase (FieldS.mk [t] req dflt nb none [] none true) t x pfx par)
                    v0 (dottedName pre name) with e | w1 <;> rw [hw1] at hch3
                · cases hch3
                · have hw12 : (Except.ok w1 : Except Err Value) = .ok w2 := hch3
                  have hww : w1 = w2 := by
                    injection hw12
                  subst hww
                  have hstep2 := list_rt B ih (FieldS.mk [t] req dflt nb none [] none true) t htB
                    hstep v0 (dottedName pre name) par w1 w' hw1 hw2
                  have hchF : chainSteps (FieldS.mk [t] req dflt nb none [] none true) [t] w'
                      (dottedName pre name) par = .ok w1 := by
                    have e2 : chainSteps (FieldS.mk [t] req dflt nb none [] none true) [t] w'
                        (dottedName pre name) par =
                        (normalizeListField (FieldS.mk [t] req dflt nb none [] none true)
                            (fun x pfx =>
                              normalizeFieldBase (FieldS.mk [t] req dflt nb none [] none true)
                                t x pfx par)
                            w' (dottedName pre name) >>=
                          fun w => chainSteps (FieldS.mk [t] req dflt nb none [] none true) [] w
                            (dottedName pre name) par) := rfl
                    rw [e2, hstep2]
                    rfl
                  exact fieldNormalize_present [t] req dflt nb [] none true d name pre par w' w1
                    hlook hchF rfl
              · have hil2 : il = false := by simpa using hil
                subst hil2
                have hch3 : (normalizeFieldBase (FieldS.mk [t] req dflt nb none [] none false) t v0
                      (dottedName pre name) par >>=
                    fun w => chainSteps (FieldS.mk [t] req dflt nb none [] none false) [] w
                      (dottedName pre name) par) = .ok w2 := hch2
                rcases hw1 : normalizeFieldBase (FieldS.mk [t] req dflt nb none [] none false) t v0
                    (dottedName pre name) par with e | w1 <;> rw [hw1] at hch3
                · cases hch3
                · have hw12 : (Except.ok w1 : Except Err Value) = .ok w2 := hch3
                  have hww : w1 = w2 := by
                    injection hw12
                  subst hww
                  have hstep2 := (base_shape_rt B ih (FieldS.mk [t] req dflt nb none [] none false)
                    t htB hstep v0 (dottedName pre name) par w1 hw1).2 w' hw2
                  have hchF : chainSteps (FieldS.mk [t] req dflt nb none [] none false) [t] w'
                      (dottedName pre name) par = .ok w1 := by
                    have e2 : chainSteps (FieldS.mk [t] req dflt nb none [] none false) [t] w'
                        (dottedName pre name) par =
                        (normalizeFieldBase (FieldS.mk [t] req dflt nb none [] none false) t w'
                            (dottedName pre name) par >>=
                          fun w => chainSteps (FieldS.mk [t] req dflt nb none [] none false) [] w
                            (dottedName pre name) par) := rfl
                    rw [e2, hstep2]
                    rfl
                  exact fieldNormalize_present [t] req dflt nb [] none false d name pre par w' w1
                    hlook hchF rfl

/-- Field-loop round trip over a plain field table, against any entry
list that looks up each dictified property correctly. -/
theorem fields_rt (B : Nat)
    (ih : ∀ s', sizeOf s' < B → plainSchema s' = true →
      ∀ entries pre par props, normalizeSchemaV s' (.vdict entries) pre par = .ok props →
        ∀ d, recToDict props = .ok d →
          normalizeSchemaV s' (.vdict d) pre par = .ok props) :
    ∀ fs, sizeOf fs ≤ B → fieldsPlain fs = true →
      ∀ entries pre par props, normalizeFieldsList fs entries pre par = .ok props →
        ∀ dd, recToDict props = .ok dd →
          ∀ d, (∀ kv ∈ dd, lookupV kv.1 d = some kv.2) →
            normalizeFieldsList fs d pre par = .ok props := by
  intro fs
  induction fs with
  | nil =>
    intro _ _ entries pre par props h dd hdd d hag
    cases h
    rfl
  | cons nf rest ihfs =>
    obtain ⟨n, f⟩ := nf
    intro hB hpl entries pre par props h dd hdd d hag
    simp only [normalizeFieldsList, Bind.bind, Except.bind] at h
    rcases hp : fieldNormalize f entries n pre par with e | p <;> rw [hp] at h
    · cases h
    · rcases hr : normalizeFieldsList rest entries pre par with e | ps <;> rw [hr] at h
      · cases h
      · cases h
        simp only [fieldsPlain, Bool.and_eq_true] at hpl
        obtain ⟨p1, p2⟩ := p
        have hp1 : n = p1 := (fieldNormalize_name f entries n pre par (p1, p2) hp).symm
        subst hp1
        simp only [recToDict, Bind.bind, Except.bind] at hdd
        rcases hpd : propToDict p2 with e | w' <;> rw [hpd] at hdd
        · cases hdd
        · rcases hrd : recToDict ps with e | ds <;> rw [hrd] at hdd
          · cases hdd
          · cases hdd
            have hlook : lookupV n d = some w' := hag (n, w') (by simp)
            have hagr : ∀ kv ∈ ds, lookupV kv.1 d = some kv.2 := fun kv hkv =>
              hag kv (by simp [hkv])
            have hfB : sizeOf f ≤ B := by
              have h1 : sizeOf f < sizeOf ((n, f) :: rest) := by
                simp
                omega
              omega
            have hrB : sizeOf rest ≤ B := by
              have h1 : sizeOf rest < sizeOf ((n, f) :: rest) := by simp
              omega
            have hhd := field_rt B ih f hfB hpl.1 entries n pre par (n, p2) hp w' hpd d hlook
            have htl := ihfs hrB hpl.2 entries pre par ps hr ds hrd d hagr
            simp only [normalizeFieldsList, Bind.bind, Except.bind, hhd, htl]

/-- Schema-level round trip by strong induction on schema size:
re-normalizing the `to_dict` image of a successful normalization of a
plain schema reproduces the same property bag (the image has exactly the
field names as keys, so the extra-key policy never fires on the rerun). -/
theorem schema_rt :
    ∀ (N : Nat) (s : Schema), sizeOf s < N → plainSchema s = true →
      ∀ entries pre par props, normalizeSchemaV s (.vdict entries) pre par = .ok props →
        ∀ d, recToDict props = .ok d →
          normalizeSchemaV s (.vdict d) pre par = .ok props := by
  intro N
  induction N with
  | zero =>
    intro s hs
    omega
  | succ N ihN =>
    intro s hs hpl entries pre par props h d hd
    cases s with
    | mk sn sfs ae =>
      have hfsB : sizeOf sfs ≤ N := by
        have h1 : sizeOf sfs < sizeOf (Schema.mk sn sfs ae) := by
          simp
          omega
        omega
      have hkd : keysDistinct (sfs.map Prod.fst) = true := by
        have h2 := hpl
        simp [plainSchema] at h2
        exact h2.1
      have hfp : fieldsPlain sfs = true := by
        have h2 := hpl
        simp [plainSchema] at h2
        exact h2.2
      have main : normalizeFieldsList sfs entries pre par = .ok props →
          normalizeSchemaV (Schema.mk sn sfs ae) (.vdict d) pre par = .ok props := by
        intro hfl
        have hkeys : props.map Prod.fst = sfs.map Prod.fst :=
          normalizeFieldsList_keys sfs entries pre par props hfl
        have hdk : d.map Prod.fst = sfs.map Prod.fst := by
          rw [recToDict_keys props d hd, hkeys]
        have hdist : keysDistinct (d.map Prod.fst) = true := by
          rw [hdk]
          exact hkd
        have hag : ∀ kv ∈ d, lookupV kv.1 d = some kv.2 := lookupV_self_of_distinct d hdist
        have hfl2 : normalizeFieldsList sfs d pre par = .ok props :=
          fields_rt N ihN sfs hfsB hfp entries pre par props hfl d hd d hag
        have hex : extraKeysOf d (sfs.map Prod.fst) = [] := by
          apply extraKeysOf_nil_of_sub
          intro k hk
          rw [hdk] at hk
          exact contains_of_mem_str k (sfs.map Prod.fst) hk
        simp only [normalizeSchemaV]
        rw [hex]
        exact hfl2
      simp only [normalizeSchemaV] at h
      split at h
      · split at h
        · cases h
        · exact main h
      · exact main h

/-- C1: amended round trip.  For a schema all of whose fields have a single
primitive-or-nested-schema coercion step, no key alias, no validators and
no choices, with pairwise distinct field names: if a raw mapping
normalizes successfully into a top-level record and `to_dict` succeeds on
its property bag, then normalizing the `to_dict` output again yields the
very same record, property for property.  (The unrestricted claim is
refuted by `c1_function_step_counterexample`: a function step is re-applied
on the second pass.) -/
theorem c1_roundtrip_plain (s : Schema) (cfg props d : List (String × Value))
    (hs : plainSchema s = true)
    (h : configInit s (.raw cfg) none = .ok (.vrec s.name none props))
    (hd : recToDict props = .ok d) :
    configInit s (.raw d) none = .ok (.vrec s.name none props) := by
  simp only [configInit, Bind.bind, Except.bind] at h ⊢
  rcases hp : normalizeSchemaV s (.vdict cfg) none (some "") with e | props2 <;> rw [hp] at h
  · cases h
  · cases h
    rw [schema_rt (sizeOf s + 1) s (by omega) hs cfg none (some "") props hp d hd]

/-- Witness for the amended C1 at `outerSchema`: the inner int arrives as
the string `"5"`, normalizes to the integer `5`, `to_dict` flattens the
nested record, and renormalizing the flattened output reproduces the same
record exactly. -/
theorem c1_roundtrip_plain_witness :
    configInit outerSchema (.raw [("child", .vdict [("value", .vint 5)])]) none =
      .ok (.vrec "Outer" none [("child", .vrec "Inner" (some "") [("value", .vint 5)])]) :=
  c1_roundtrip_plain outerSchema [("child", .vdict [("value", .vstr "5")])]
    [("child", .vrec "Inner" (some "") [("value", .vint 5)])]
    [("child", .vdict [("value", .vint 5)])] (by rfl) (by rfl) (by rfl)
